import Mathlib

/-!
Shallow embedding of the session indexing and search subsystem of the
`recall` repository (a local-first search tool for AI-assistant transcripts),
used to check the claims of its natural-language specification.

Conventions of the embedding:
* Rust `String`s are Lean `String`s; byte-level operations (Rust slices by
  UTF-8 byte index) are modelled on `String.data` (`List Char`) together with
  `Char.utf8Size`, so byte lengths and char boundaries are exact.
* `chrono::DateTime<Utc>` is modelled as `Int` (unix seconds; milliseconds
  for the OpenCode source, which stores millisecond stamps).
* `f32`/`f64` scores are modelled as `Rat`; the transcendental `exp` used by
  the recency boost is passed in as an explicit function parameter, since no
  claim depends on its numeric values.
* Rust's std `HashMap` is modelled as an association list with
  insert-overwrite semantics (`hmInsert`); its unspecified iteration order is
  modelled by an explicit permutation parameter where it matters.
* Filesystem reads are modelled as explicit inputs (e.g. the current
  `(mtime, size)` of a path is a function `String → Option FileState`).
* Fallible steps (JSON line parsing, payload deserialisation) are modelled by
  `Option`s describing the outcome of the corresponding serde call.
-/

/-! ## Char-list string helpers

Lean's built-in `String.trim`, `String.startsWith`, … are implemented on byte
positions and do not reduce in the kernel, so the embedding uses char-list
versions with the same behaviour on the strings that occur here. -/

/-- UTF-8 byte length of a char list (Rust `str::len`). -/
def utf8Len (cs : List Char) : Nat := (cs.map Char.utf8Size).sum

/-- Rust `str::starts_with`. -/
def strStartsWith (s pat : String) : Bool := pat.data.isPrefixOf s.data

/-- Rust `str::ends_with`. -/
def strEndsWith (s pat : String) : Bool := pat.data.isSuffixOf s.data

/-- Rust `str::trim_start` (whitespace from the front). -/
def trimStartStr (s : String) : String := ⟨s.data.dropWhile Char.isWhitespace⟩

/-- Rust `str::trim` (whitespace from both ends). -/
def trimStr (s : String) : String :=
  ⟨((s.data.dropWhile Char.isWhitespace).reverse.dropWhile Char.isWhitespace).reverse⟩

/-- Rust `str::is_empty` on the trimmed string. -/
def trimIsEmpty (s : String) : Bool := (trimStr s).data.isEmpty

/-- Rust `str::to_lowercase`, modelled per char (`char::to_lowercase` can
expand some exotic code points to several chars; no transcript content or
query relevant to the claims does). -/
def lowerStr (s : String) : String := ⟨s.data.map Char.toLower⟩

/-- Accumulating worker for `splitWhitespace` (`cur` holds the current
word reversed). -/
def wsGroupsGo (cur : List Char) : List Char → List (List Char)
  | [] => if cur.isEmpty then [] else [cur.reverse]
  | c :: cs =>
    if c.isWhitespace then
      if cur.isEmpty then wsGroupsGo [] cs else cur.reverse :: wsGroupsGo [] cs
    else wsGroupsGo (c :: cur) cs

/-- Rust `str::split_whitespace`: maximal runs of non-whitespace chars,
empties never produced. -/
def splitWhitespace (s : String) : List String :=
  (wsGroupsGo [] s.data).map (fun l => String.mk l)

/-! ## Data model (`src/session.rs`) -/

inductive SessionSource
  | claudeCode
  | codexCli
  | factory
  | openCode
deriving DecidableEq, Repr

/-- `SessionSource::parse` from `src/session.rs`. -/
def sessionSourceParse (s : String) : Option SessionSource :=
  if s = "claude" then some .claudeCode
  else if s = "codex" then some .codexCli
  else if s = "factory" then some .factory
  else if s = "opencode" then some .openCode
  else none

inductive Role
  | user
  | assistant
deriving DecidableEq, Repr

inductive ToolStatus
  | success
  | error
  | pending
deriving DecidableEq, Repr

/-- Opaque carrier for a `serde_json::Value` tool input (claims never inspect
it; the parser only clones it through). -/
inductive JVal
  | null
  | raw (s : String)
deriving DecidableEq, Repr

structure ToolOutput where
  content : String
  truncated : Bool
  total_bytes : Nat
deriving DecidableEq, Repr

structure ToolCall where
  id : Option String
  tool_use_id : String
  name : String
  input : JVal
  status : ToolStatus
  duration_ms : Option Nat
  output : Option ToolOutput
deriving DecidableEq, Repr

structure Message where
  role : Role
  content : String
  timestamp : Int
  tool_calls : List ToolCall
deriving DecidableEq, Repr

structure Session where
  id : String
  source : SessionSource
  file_path : String
  cwd : String
  git_branch : Option String
  timestamp : Int
  messages : List Message
deriving DecidableEq, Repr

/-! ## `ToolOutput::new` (`src/session.rs`)

The Rust code walks `char_indices()` to find safe byte boundaries; the
embedding makes those (offset, char) pairs explicit. -/

/-- `char_indices()` of a char list starting at byte offset `off`. -/
def charIdxFrom (off : Nat) : List Char → List (Nat × Char)
  | [] => []
  | c :: cs => (off, c) :: charIdxFrom (off + c.utf8Size) cs

/-- `ToolOutput::MAX_BYTES`. -/
def maxBytes : Nat := 2000

/-- `ToolOutput::KEEP_BYTES`. -/
def keepBytes : Nat := 1000

/-- Decimal rendering (`{:.1}` in Rust) of `n` bytes as kilobytes with one
fractional digit. `n / 1024` is a dyadic rational represented exactly by the
`f64`, and Rust's formatter rounds the exact value half-to-even, which is
what this computes over `Nat`. -/
def fmtTenthsKb (n : Nat) : String :=
  let q := n * 10 / 1024
  let r := n * 10 % 1024
  let tenths := if 1024 < 2 * r then q + 1
    else if 2 * r < 1024 then q
    else if q % 2 = 0 then q else q + 1
  toString (tenths / 10) ++ "." ++ toString (tenths % 10)

/-- The `\n[...truncated N.Nkb...]\n` marker inserted between the kept head
and tail. -/
def markerChars (total_bytes : Nat) : List Char :=
  "\n[...truncated ".data ++ (fmtTenthsKb (total_bytes - maxBytes)).data ++ "kb...]\n".data

/-- `ToolOutput::new`. The process-wide `DISABLE_TRUNCATION` atomic is the
explicit `disable` argument. Byte slicing `&content[..start_end]` /
`&content[last_start..]` keeps exactly the chars whose start offset is below /
at-or-above the boundary (both boundaries are char boundaries by
construction). -/
def toolOutputNew (disable : Bool) (content : String) (is_error : Bool) : ToolOutput :=
  let cs := content.data
  let total_bytes := utf8Len cs
  if disable then ⟨content, false, total_bytes⟩
  else if is_error || total_bytes ≤ maxBytes then ⟨content, false, total_bytes⟩
  else
    let idx := charIdxFrom 0 cs
    let start_end :=
      match (idx.takeWhile (fun p => decide (p.1 < keepBytes))).getLast? with
      | some p => p.1 + p.2.utf8Size
      | none => min keepBytes total_bytes
    let last_start :=
      match (idx.reverse.takeWhile (fun p => decide (total_bytes - p.1 < keepBytes))).getLast? with
      | some p => p.1
      | none => total_bytes - keepBytes
    let headPart := (idx.takeWhile (fun p => decide (p.1 < start_end))).map (·.2)
    let tailPart := (idx.dropWhile (fun p => decide (p.1 < last_start))).map (·.2)
    ⟨⟨headPart ++ markerChars total_bytes ++ tailPart⟩, true, total_bytes⟩

/-- `ToolOutput::new_untruncated`. -/
def toolOutputNewUntruncated (content : String) : ToolOutput :=
  ⟨content, false, utf8Len content.data⟩

/-! ## `join_consecutive_messages` (`src/parser/mod.rs`) -/

/-- One step of the fold in `join_consecutive_messages`: Rust's
`acc.last_mut()` in-place update is `dropLast ++ [updated]`. -/
def joinStep (acc : List Message) (msg : Message) : List Message :=
  match acc.getLast? with
  | some last =>
    if last.role = msg.role then
      acc.dropLast ++
        [{ last with content := last.content ++ "\n\n" ++ msg.content,
                     timestamp := msg.timestamp }]
    else acc ++ [msg]
  | none => acc ++ [msg]

/-- `join_consecutive_messages`. -/
def join_consecutive_messages (messages : List Message) : List Message :=
  messages.foldl joinStep []

/-! ## HashMap model

`std::collections::HashMap` as an association list: keys stay unique because
`hmInsert` overwrites in place; `hmRemoveLookup` models `remove` (under the
key-uniqueness maintained by `hmInsert`, filtering all entries with the key
removes exactly the one entry). -/

def hmInsert {A : Type} (m : List (String × A)) (k : String) (v : A) : List (String × A) :=
  if (List.lookup k m).isSome then
    m.map (fun kv => if kv.1 = k then (k, v) else kv)
  else m ++ [(k, v)]

def eraseKey {A : Type} (m : List (String × A)) (k : String) : List (String × A) :=
  m.filter (fun kv => !(kv.1 = k : Bool))

def hmRemoveLookup {A : Type} (m : List (String × A)) (k : String) :
    Option A × List (String × A) :=
  (List.lookup k m, eraseKey m k)

/-! ## Claude parser (`src/parser/claude.rs`)

A transcript line is the outcome of `serde_json::from_str::<ClaudeLine>`:
either `malformed` (skipped) or a view of the fields the parser reads. The
`content` JSON value is modelled by the block shapes the two extraction
functions distinguish. -/

/-- A block inside a `tool_result`'s array-shaped `content` (only
`{type:"text"}` blocks with a string `text` contribute). -/
inductive CBlockLite
  | textL (text : Option String)
  | otherL
deriving DecidableEq, Repr

/-- The `content` field of a `tool_result` block: a string, an array of
blocks, or anything else (treated as empty). `none` models an absent field. -/
inductive CRContent
  | rstr (s : String)
  | rarr (xs : List CBlockLite)
  | rother
deriving DecidableEq, Repr

/-- One element of an array-shaped message `content`, discriminated on its
`type` field exactly as the Rust `match` does; `otherB` covers `thinking`,
non-object elements and unknown types. -/
inductive CBlock
  | textB (text : Option String)
  | toolUseB (id : Option String) (name : Option String) (input : Option JVal)
  | toolResultB (tool_use_id : Option String) (rcontent : Option CRContent)
      (is_error : Option Bool) (durationMs : Option Nat)
  | otherB
deriving DecidableEq, Repr

/-- A message `content` value: plain string, array of blocks, or other JSON. -/
inductive CValue
  | str (s : String)
  | arr (blocks : List CBlock)
  | other
deriving DecidableEq, Repr

structure ClaudeMsgV where
  role : String
  content : CValue
deriving DecidableEq, Repr

structure ClaudeEntry where
  entry_type : String
  session_id : Option String
  cwd : Option String
  git_branch : Option String
  /-- the `timestamp` field after RFC-3339 parsing; `none` if absent or
  unparsable (the code then falls back to `Utc::now`, the `now` argument). -/
  timestamp : Option Int
  message : Option ClaudeMsgV
  is_compact_summary : Option Bool
  is_visible_in_transcript_only : Option Bool
  is_meta : Option Bool
deriving DecidableEq, Repr

inductive ClaudeLineV
  | malformed
  | entry (e : ClaudeEntry)
deriving DecidableEq, Repr

/-- The `ToolResult` side-table record of `src/parser/claude.rs`. -/
structure CToolResult where
  tool_use_id : String
  content : String
  is_error : Bool
  duration_ms : Option Nat
deriving DecidableEq, Repr

/-- `extract_content_and_tools`. -/
def extract_content_and_tools (v : CValue) : String × List ToolCall :=
  match v with
  | .str s => (s, [])
  | .arr blocks =>
    let texts := blocks.filterMap (fun b =>
      match b with
      | .textB t => t
      | _ => none)
    let tool_calls := blocks.filterMap (fun b =>
      match b with
      | .toolUseB id name input =>
        some { id := none, tool_use_id := id.getD "", name := name.getD "unknown",
               input := input.getD .null, status := .pending, duration_ms := none,
               output := none }
      | _ => none)
    (String.intercalate "\n" texts, tool_calls)
  | .other => ("", [])

/-- Text extraction from a `tool_result`'s `content` field. -/
def crContentStr (rc : Option CRContent) : String :=
  match rc with
  | some (.rstr s) => s
  | some (.rarr xs) =>
    String.intercalate "\n" (xs.filterMap (fun b =>
      match b with
      | .textL t => t
      | _ => none))
  | _ => ""

/-- `extract_tool_results`. -/
def extract_tool_results (v : CValue) : List CToolResult :=
  match v with
  | .arr blocks => blocks.filterMap (fun b =>
    match b with
    | .toolResultB tid rc ie dm =>
      let tool_use_id := tid.getD ""
      if tool_use_id = "" then none
      else some { tool_use_id := tool_use_id, content := crContentStr rc,
                  is_error := ie.getD false, duration_ms := dm }
    | _ => none)
  | _ => []

/-- The `"user"`/`"assistant"` role match shared by the line parsers. -/
def roleOfString (s : String) : Option Role :=
  if s = "user" then some .user
  else if s = "assistant" then some .assistant
  else none

/-- Loop state of `ClaudeParser::parse_file`. -/
structure ClaudeSt where
  sid : Option String
  cwd : Option String
  git : Option String
  latest : Option Int
  msgs : List Message
  tres : List (String × CToolResult)
deriving DecidableEq, Repr

def claudeInitSt : ClaudeSt := ⟨none, none, none, none, [], []⟩

/-- One line of the `ClaudeParser::parse_file` loop. -/
def claudeStep (now : Int) (st : ClaudeSt) (l : ClaudeLineV) : ClaudeSt :=
  match l with
  | .malformed => st
  | .entry e =>
    if e.entry_type ≠ "user" ∧ e.entry_type ≠ "assistant" then st
    else if e.is_compact_summary = some true ∨ e.is_visible_in_transcript_only = some true
        ∨ e.is_meta = some true then st
    else
      let st := { st with
        sid := match st.sid with | some v => some v | none => e.session_id,
        cwd := match st.cwd with | some v => some v | none => e.cwd,
        git := match st.git with | some v => some v | none => e.git_branch }
      let timestamp := e.timestamp.getD now
      let st := { st with
        latest := match st.latest with
          | none => some timestamp
          | some l0 => if timestamp > l0 then some timestamp else some l0 }
      match e.message with
      | none => st
      | some msg =>
        match roleOfString msg.role with
        | none => st
        | some role =>
          let ct := extract_content_and_tools msg.content
          let tres2 := (extract_tool_results msg.content).foldl
            (fun t r => hmInsert t r.tool_use_id r) st.tres
          let st := if role = .user then { st with tres := tres2 } else st
          if ct.1 = "" ∧ ct.2 = [] then st
          else if strStartsWith (trimStartStr ct.1) "<command-message>"
              ∨ strStartsWith (trimStartStr ct.1) "<command-name>" then st
          else { st with msgs := st.msgs ++ [⟨role, ct.1, timestamp, ct.2⟩] }

/-- The whole line loop of `ClaudeParser::parse_file`. -/
def claudeFoldSt (now : Int) (lines : List ClaudeLineV) : ClaudeSt :=
  lines.foldl (claudeStep now) claudeInitSt

/-- The tool-result side table after the line loop. -/
def claudeToolTable (now : Int) (lines : List ClaudeLineV) : List (String × CToolResult) :=
  (claudeFoldSt now lines).tres

/-- One tool call of the result-matching loop
(`if let Some(result) = tool_results.remove(...)`). -/
def rclStep (disable : Bool) (acc : List ToolCall × List (String × CToolResult))
    (tc : ToolCall) : List ToolCall × List (String × CToolResult) :=
  match hmRemoveLookup acc.2 tc.tool_use_id with
  | (some r, t2) =>
    (acc.1 ++ [{ tc with
      status := if r.is_error then .error else .success,
      duration_ms := r.duration_ms,
      output := some (toolOutputNew disable r.content r.is_error) }], t2)
  | (none, _) => (acc.1 ++ [tc], acc.2)

/-- Resolve the tool calls of one message against the side table
(`tool_results.remove(...)` consumes the entry). -/
def resolveCallsList (disable : Bool) (table : List (String × CToolResult))
    (calls : List ToolCall) : List ToolCall × List (String × CToolResult) :=
  calls.foldl (rclStep disable) ([], table)

/-- One message of the result-matching pass. -/
def rtcStep (disable : Bool) (acc : List Message × List (String × CToolResult))
    (m : Message) : List Message × List (String × CToolResult) :=
  let rc := resolveCallsList disable acc.2 m.tool_calls
  (acc.1 ++ [{ m with tool_calls := rc.1 }], rc.2)

/-- The result-matching pass over all messages (`for message in &mut messages`). -/
def resolveToolCalls (disable : Bool) (table : List (String × CToolResult))
    (msgs : List Message) : List Message × List (String × CToolResult) :=
  msgs.foldl (rtcStep disable) ([], table)

/-- `ClaudeParser::parse_file`. `path` is the file path, `stem` its
`file_stem()` (as an optional UTF-8 string), `now` the parse time, `disable`
the process-wide truncation flag read by `ToolOutput::new`. -/
def claude_parse_file (now : Int) (disable : Bool) (path : String) (stem : Option String)
    (lines : List ClaudeLineV) : Session :=
  let st := claudeFoldSt now lines
  let resolved := (resolveToolCalls disable st.tres st.msgs).1
  { id := st.sid.getD (stem.getD "unknown"),
    source := .claudeCode,
    file_path := path,
    cwd := st.cwd.getD ".",
    git_branch := st.git,
    timestamp := st.latest.getD now,
    messages := join_consecutive_messages resolved }

/-! ## Codex parser (`src/parser/codex.rs`) -/

/-- Payload of a `session_meta` line, after `from_value::<SessionMeta>`;
`gitBranch` is `meta.git.and_then(|g| g.branch)` flattened. -/
structure CodexMeta where
  id : String
  cwd : Option String
  gitBranch : Option String
deriving DecidableEq, Repr

structure CodexBlock where
  content_type : String
  text : Option String
deriving DecidableEq, Repr

structure CodexItem where
  role : Option String
  content : Option (List CodexBlock)
deriving DecidableEq, Repr

/-- One transcript line: `malformed` for a serde_json error; otherwise the
entry type, parsed timestamp, and the payload as seen by the two
`from_value` calls (`none` when the payload is absent or fails to
deserialise to that shape). -/
inductive CodexLineV
  | malformed
  | entry (entry_type : String) (timestamp : Option Int)
      (payloadMeta : Option CodexMeta) (payloadItem : Option CodexItem)
deriving DecidableEq, Repr

/-- `extract_codex_content`. -/
def extract_codex_content (item : CodexItem) : String :=
  match item.content with
  | none => ""
  | some content =>
    String.intercalate "\n" (content.filterMap (fun b =>
      if b.content_type = "input_text" ∨ b.content_type = "output_text" then b.text
      else none))

/-- Loop state of `CodexParser::parse_file`. -/
structure CodexSt where
  sid : Option String
  cwd : Option String
  git : Option String
  latest : Option Int
  msgs : List Message
deriving DecidableEq, Repr

/-- One line of the `CodexParser::parse_file` loop. -/
def codexStep (now : Int) (st : CodexSt) (l : CodexLineV) : CodexSt :=
  match l with
  | .malformed => st
  | .entry ty ts pm pi =>
    let timestamp := ts.getD now
    if ty = "session_meta" then
      match pm with
      | some meta =>
        { st with
          sid := match st.sid with | some v => some v | none => some meta.id,
          cwd := match st.cwd with | some v => some v | none => meta.cwd,
          git := match st.git with | some v => some v | none => meta.gitBranch }
      | none => st
    else if ty = "response_item" then
      match pi with
      | some item =>
        let role? : Option Role :=
          match item.role with
          | some r =>
            if r = "user" then some .user
            else if r = "assistant" then some .assistant
            else match item.content with
              | some content =>
                if content.any (fun c => c.content_type = "input_text") then some .user
                else if content.any (fun c => c.content_type = "output_text") then
                  some .assistant
                else none
              | none => none
          | none =>
            match item.content with
            | some content =>
              if content.any (fun c => c.content_type = "input_text") then some .user
              else if content.any (fun c => c.content_type = "output_text") then
                some .assistant
              else none
            | none => none
        match role? with
        | none => st
        | some role =>
          let content := extract_codex_content item
          if content ≠ "" then
            { st with
              msgs := st.msgs ++ [⟨role, content, timestamp, []⟩],
              latest := match st.latest with
                | none => some timestamp
                | some l0 => if timestamp > l0 then some timestamp else some l0 }
          else st
      | none => st
    else st

/-- `CodexParser::parse_file`. Note: unlike the other three parsers, the
messages are returned as accumulated — `join_consecutive_messages` is NOT
applied. -/
def codex_parse_file (now : Int) (path : String) (stem : Option String)
    (lines : List CodexLineV) : Session :=
  let st := lines.foldl (codexStep now) ⟨none, none, none, none, []⟩
  { id := st.sid.getD (stem.getD "unknown"),
    source := .codexCli,
    file_path := path,
    cwd := st.cwd.getD ".",
    git_branch := st.git,
    timestamp := st.latest.getD now,
    messages := st.msgs }

/-! ## Factory parser (`src/parser/factory.rs`) -/

/-- One element of a Factory message `content` array (only `{type:"text"}`
objects with a string `text` are read). -/
inductive FBlock
  | textB (text : Option String)
  | otherB
deriving DecidableEq, Repr

/-- A Factory message `content` value: an array of blocks or any other JSON
(treated as empty). -/
inductive FValue
  | arr (blocks : List FBlock)
  | other
deriving DecidableEq, Repr

structure FactoryMsgV where
  role : String
  content : FValue
deriving DecidableEq, Repr

structure FactoryEntry where
  entry_type : String
  id : Option String
  cwd : Option String
  timestamp : Option Int
  message : Option FactoryMsgV
deriving DecidableEq, Repr

inductive FactoryLineV
  | malformed
  | entry (e : FactoryEntry)
deriving DecidableEq, Repr

/-- `extract_content` of `src/parser/factory.rs`: text blocks, skipping
fully-wrapped `<system-reminder>` blocks. -/
def factory_extract_content (v : FValue) : String :=
  match v with
  | .arr blocks =>
    String.intercalate "\n" (blocks.filterMap (fun b =>
      match b with
      | .textB (some text) =>
        let trimmed := trimStr text
        if strStartsWith trimmed "<system-reminder>" ∧ strEndsWith trimmed "</system-reminder>"
        then none
        else some text
      | _ => none))
  | .other => ""

/-- `extract_cwd_from_path`: decode a parent directory name like
`-Users-zippo-code-recall`. When the name starts with `-`, Rust's
`replacen('-', "/", 1)` rewrites that leading dash and `replace('-', "/")`
rewrites the rest, which together is `"/" ++ (rest with every '-' → '/')`. -/
def extract_cwd_from_path (parentDirName : Option String) : Option String :=
  match parentDirName with
  | none => none
  | some dir_name =>
    if strStartsWith dir_name "-" then
      some ("/" ++ String.mk ((dir_name.data.drop 1).map (fun c => if c = '-' then '/' else c)))
    else none

structure FactorySt where
  sid : Option String
  cwd : Option String
  latest : Option Int
  msgs : List Message
deriving DecidableEq, Repr

/-- One line of the `FactoryParser::parse_file` loop. Note `latest` is
updated for every `message`-typed line, before the role/content checks. -/
def factoryStep (now : Int) (st : FactorySt) (l : FactoryLineV) : FactorySt :=
  match l with
  | .malformed => st
  | .entry e =>
    if e.entry_type = "session_start" then
      { st with
        sid := match st.sid with | some v => some v | none => e.id,
        cwd := match st.cwd with | some v => some v | none => e.cwd }
    else if e.entry_type = "message" then
      let timestamp := e.timestamp.getD now
      let st := { st with
        latest := match st.latest with
          | none => some timestamp
          | some l0 => if timestamp > l0 then some timestamp else some l0 }
      match e.message with
      | none => st
      | some msg =>
        match roleOfString msg.role with
        | none => st
        | some role =>
          let content := factory_extract_content msg.content
          if content ≠ "" then
            { st with msgs := st.msgs ++ [⟨role, content, timestamp, []⟩] }
          else st
    else st

/-- `FactoryParser::parse_file`; `parentDirName` is the name of the file's
parent directory (for `extract_cwd_from_path`). -/
def factory_parse_file (now : Int) (path : String) (stem : Option String)
    (parentDirName : Option String) (lines : List FactoryLineV) : Session :=
  let st := lines.foldl (factoryStep now) ⟨none, none, none, []⟩
  let cwd := match st.cwd with
    | some v => some v
    | none => extract_cwd_from_path parentDirName
  { id := st.sid.getD (stem.getD "unknown"),
    source := .factory,
    file_path := path,
    cwd := cwd.getD ".",
    git_branch := none,
    timestamp := st.latest.getD now,
    messages := join_consecutive_messages st.msgs }

/-! ## OpenCode parser (`src/parser/opencode.rs`)

The session metadata file, the per-message metadata files and the per-message
part files are explicit inputs (each one is the successfully-deserialised
view; files that fail to open or deserialise are already absent, as the Rust
code drops them with `if let Ok`). Millisecond timestamps are kept as `Int`
(`millis_to_datetime` is injective on the in-range values). -/

structure OCSessionMeta where
  id : String
  directory : Option String
  /-- `time.created`, if a `time` object is present. -/
  created : Option Int
deriving DecidableEq, Repr

structure OCMsgMeta where
  id : String
  role : String
  created : Option Int
  /-- `path.cwd`: `none` models both an absent `path` object and an absent
  `cwd` field within it (the Rust assignment handles both alike). -/
  pathCwd : Option String
deriving DecidableEq, Repr

structure OCPart where
  part_type : String
  text : Option String
deriving DecidableEq, Repr

/-- Byte-lexicographic order on Rust strings (`a.cmp(b)` on UTF-8 bytes
coincides with code-point order, which this computes). Returns the `le`
form used for a stable sort: `cmp(a,b) ≠ Greater`. -/
def charsLt : List Char → List Char → Bool
  | [], [] => false
  | [], _ :: _ => true
  | _ :: _, [] => false
  | a :: as, b :: bs => if a < b then true else if b < a then false else charsLt as bs

/-- `read_message_parts`: list the part files of a message, sort by filename,
keep non-empty `text` parts, join with newlines. `partsOf` maps a message id
to the (filename, part) pairs read from its part directory. -/
def read_message_parts (partsOf : String → List (String × OCPart)) (message_id : String) :
    String :=
  let part_entries := (partsOf message_id).mergeSort
    (fun a b => !(charsLt b.1.data a.1.data))
  String.intercalate "\n" (part_entries.filterMap (fun fp =>
    if fp.2.part_type = "text" then
      match fp.2.text with
      | some text => if text ≠ "" then some text else none
      | none => none
    else none))

structure OCSt where
  cwd : Option String
  latest : Option Int
  msgs : List Message
deriving DecidableEq, Repr

/-- One message of the `OpenCodeParser::parse_file` loop (after sorting). -/
def opencodeStep (now : Int) (partsOf : String → List (String × OCPart))
    (st : OCSt) (msg : OCMsgMeta) : OCSt :=
  let timestamp := msg.created.getD now
  let st := { st with
    latest := match st.latest with
      | none => some timestamp
      | some l0 => if timestamp > l0 then some timestamp else some l0,
    cwd := match st.cwd with | some v => some v | none => msg.pathCwd }
  match roleOfString msg.role with
  | none => st
  | some role =>
    let content := read_message_parts partsOf msg.id
    if content ≠ "" then
      { st with msgs := st.msgs ++ [⟨role, content, timestamp, []⟩] }
    else st

/-- `OpenCodeParser::parse_file`. -/
def opencode_parse_file (now : Int) (path : String) (sess : OCSessionMeta)
    (msgEntries : List OCMsgMeta) (partsOf : String → List (String × OCPart)) : Session :=
  let sorted := msgEntries.mergeSort
    (fun a b => decide ((a.created.getD 0) ≤ (b.created.getD 0)))
  let st := sorted.foldl (opencodeStep now partsOf) ⟨sess.directory, none, []⟩
  { id := sess.id,
    source := .openCode,
    file_path := path,
    cwd := st.cwd.getD ".",
    git_branch := none,
    timestamp := st.latest.getD (sess.created.getD now),
    messages := join_consecutive_messages st.msgs }

/-! ## File state store (`src/index/state.rs`) -/

structure FileState where
  mtime : Nat
  size : Nat
deriving DecidableEq, Repr

/-- `IndexState::needs_reindex`. `fs` is the filesystem's current view
(`get_file_state`: `none` when the file does not exist or its metadata cannot
be read); `indexed_files` is the recorded store. -/
def needs_reindex (fs : String → Option FileState)
    (indexed_files : List (String × FileState)) (path : String) : Bool :=
  match fs path with
  | none => false
  | some current =>
    match List.lookup path indexed_files with
    | some indexed => indexed.mtime != current.mtime || indexed.size != current.size
    | none => true

/-! ## Query engine (`src/index/schema.rs`)

The Tantivy searcher itself is external: `search` is modelled from the point
where the index has returned the scored `top_docs` list. The query that
would be handed to the searcher is built by `buildSearchQuery` below, a
direct model of the query-construction block. Scores are `Rat`
(see the header comment), and the `f64::exp` of the recency boost is the
explicit argument `expQ`. The iteration order of
`HashMap::into_values` is the explicit argument `shuffle` (an arbitrary
permutation in the theorems). -/

inductive Occur
  | should
  | must
  | mustNot
deriving DecidableEq, Repr

/-- A Tantivy query AST, as far as `SessionIndex::search` constructs one:
the `QueryParser` result is an opaque leaf. -/
inductive TantivyQuery
  | parsed (query_str : String)
  | phrase (terms : List String)
  | boost (inner : TantivyQuery) (factor : Rat)
  | boolean (clauses : List (Occur × TantivyQuery))

/-- The query-construction block of `SessionIndex::search` (lines 134–158):
parse the base query; if the whitespace-split word list has more than one
element, build a phrase query over the lowercased words, boost it by 5.0 and
OR it with the base query. -/
def buildSearchQuery (query_str : String) : TantivyQuery :=
  let base_query := TantivyQuery.parsed query_str
  let words := splitWhitespace query_str
  if words.length > 1 then
    .boolean [(.should, .boost (.phrase (words.map lowerStr)) 5), (.should, base_query)]
  else base_query

/-- A stored message document as retrieved from the index (all fields are
present on documents written by `index_session`). -/
structure SDoc where
  session_id : String
  source : String
  file_path : String
  cwd : String
  git_branch : String
  timestamp : Int
  message_index : Nat
  content : String
deriving DecidableEq, Repr

/-- `SearchResult` as constructed in `SessionIndex::search`. -/
structure SearchResult where
  session : Session
  score : Rat
  matched_message_index : Nat
  snippet : String
  match_spans : List (Nat × Nat)
deriving DecidableEq, Repr

/-- Byte offset of the first occurrence of `needle` in `hay`
(Rust `str::find`). -/
def findSub : List Char → List Char → Option Nat
  | hay, needle =>
    if needle.isPrefixOf hay then some 0
    else match hay with
      | [] => none
      | c :: rest => (findSub rest needle).map (· + c.utf8Size)

/-- Number of chars of `cs` that lie before byte offset `pos`. -/
def charPosOfByte (cs : List Char) (pos : Nat) : Nat :=
  ((charIdxFrom 0 cs).takeWhile (fun p => decide (p.1 < pos))).length

/-- `create_snippet` (`src/index/schema.rs`). -/
def create_snippet (content query : String) (max_len : Nat) : String :=
  let chars := content.data
  let lower_content := lowerStr content
  let lower_query := lowerStr query
  match findSub lower_content.data lower_query.data with
  | some byte_pos =>
    let char_pos := charPosOfByte lower_content.data byte_pos
    let query_char_len := lower_query.data.length
    let start_char := char_pos - (max_len / 2)
    let end_char := min (char_pos + query_char_len + max_len / 2) chars.length
    let snippet : String := ⟨(chars.drop start_char).take (end_char - start_char)⟩
    let snippet := if start_char > 0 then "..." ++ trimStartStr snippet else snippet
    let snippet := if end_char < chars.length then
        ⟨((snippet.data.reverse.dropWhile Char.isWhitespace).reverse)⟩ ++ "..."
      else snippet
    ⟨snippet.data.map (fun c => if c = '\n' then ' ' else c)⟩
  | none =>
    let truncated : String := ⟨chars.take max_len⟩
    if chars.length > max_len then trimStr truncated ++ "..." else truncated

/-- Worker for `find_match_spans`; `start` is the current byte offset into
the remaining suffix `hay`. Rust's `while let` advances by `pos + query.len()`
bytes each round; the remaining char list shrinks accordingly, which is the
structural measure here (`qlen` chars are dropped per round, and the Rust
loop would not terminate either if the query were empty — `search` only calls
it with a non-empty query). -/
def findSpansGo (queryBytes : Nat) (lower_query : List Char) :
    Nat → List Char → Nat → List (Nat × Nat)
  | _, _, 0 => []
  | start, hay, fuel + 1 =>
    match findSub hay lower_query with
    | none => []
    | some pos =>
      let abs_pos := start + pos
      (abs_pos, abs_pos + queryBytes) ::
        findSpansGo queryBytes lower_query (abs_pos + queryBytes)
          (hay.drop (charPosOfByte hay pos + lower_query.length)) fuel

/-- `find_match_spans` (`src/index/schema.rs`): byte ranges of successive
occurrences of the lowercased query in the lowercased snippet; each span is
`(abs_pos, abs_pos + query.len())` where `query.len()` is the byte length of
the original query. -/
def find_match_spans (snippet query : String) : List (Nat × Nat) :=
  let lower_snippet := lowerStr snippet
  let lower_query := lowerStr query
  findSpansGo (utf8Len query.data) lower_query.data 0 lower_snippet.data
    (lower_snippet.data.length + 1)

/-- The `SearchResult` built for one retrieved document (lines 167–236). -/
def mkSearchResult (query_str : String) (score : Rat) (doc : SDoc) : SearchResult :=
  let source := (sessionSourceParse doc.source).getD .claudeCode
  let git_branch := if doc.git_branch = "" then none else some doc.git_branch
  let snippet := create_snippet doc.content query_str 200
  { session :=
    { id := doc.session_id,
      source := source,
      file_path := doc.file_path,
      cwd := doc.cwd,
      git_branch := git_branch,
      timestamp := doc.timestamp,
      messages := [] },
    score := score,
    matched_message_index := doc.message_index,
    snippet := snippet,
    match_spans := find_match_spans snippet query_str }

/-- The grouping `HashMap<String, (f32, SearchResult)>` fold (lines 164–251):
`entry(session_id).and_modify(...).or_insert((score, result))`. -/
def groupStep (query_str : String) (m : List (String × (Rat × SearchResult)))
    (sd : Rat × SDoc) : List (String × (Rat × SearchResult)) :=
  let score := sd.1
  let doc := sd.2
  let result := mkSearchResult query_str score doc
  if (List.lookup doc.session_id m).isSome then
    m.map (fun kv =>
      if kv.1 = doc.session_id then
        let recency_bonus : Rat := (doc.message_index : Rat) * (1 / 100)
        if score + recency_bonus > kv.2.1 then (kv.1, (score + recency_bonus, result))
        else kv
      else kv)
  else m ++ [(doc.session_id, (score, result))]

/-- Group the retrieved documents by session id. -/
def groupBySession (query_str : String) (top_docs : List (Rat × SDoc)) :
    List (String × (Rat × SearchResult)) :=
  top_docs.foldl (groupStep query_str) []

/-- The grouped values, in association-list (first-encounter) order; the
actual `into_values` order is unspecified, which the `shuffle` argument of
`search` accounts for. -/
def groupValues (query_str : String) (top_docs : List (Rat × SDoc)) : List SearchResult :=
  (groupBySession query_str top_docs).map (fun kv => kv.2.2)

/-- Seconds in the 7-day recency half-life. -/
def halfLifeSecs : Rat := 7 * 24 * 3600

/-- `final = score × (1 + exp(−age / half_life))` with `age = max(now − ts, 0)`
(lines 255–270); `expQ` models `f64::exp`. -/
def finalScore (expQ : Rat → Rat) (now : Int) (r : SearchResult) : Rat :=
  let age : Rat := max ((now : Rat) - (r.session.timestamp : Rat)) 0
  r.score * (1 + expQ (-age / halfLifeSecs))

/-- The comparator of the final `sort_by` as a `le` for a stable sort:
Rust sorts ascending by `cmp(a,b) = final_b.partial_cmp(final_a).unwrap_or(Equal)`,
i.e. `le a b ↔ final b ≤ final a` (descending by final; `Rat` has no NaN, so
`partial_cmp` never falls back to `Equal` spuriously). -/
def searchLe (expQ : Rat → Rat) (now : Int) (a b : SearchResult) : Bool :=
  decide (finalScore expQ now b ≤ finalScore expQ now a)

/-- The `results.sort_by(...)` call: Rust's `sort_by` is a stable sort, as is
`List.mergeSort`, and two stable sorts under the same total preorder agree. -/
def sortResults (expQ : Rat → Rat) (now : Int) (rs : List SearchResult) : List SearchResult :=
  rs.mergeSort (searchLe expQ now)

/-- `SessionIndex::search`, from the empty-query check through grouping,
sorting and truncation. `top_docs` is what the Tantivy searcher returned for
`buildSearchQuery query_str` (at most `limit * 10` documents); `shuffle` is
the `HashMap::into_values` iteration order. -/
def search (shuffle : List SearchResult → List SearchResult) (expQ : Rat → Rat)
    (query_str : String) (limit : Nat) (now : Int) (top_docs : List (Rat × SDoc)) :
    List SearchResult :=
  if trimIsEmpty query_str then []
  else
    let results := shuffle (groupValues query_str top_docs)
    (sortResults expQ now results).take limit

/-! ## Background indexer (`src/app.rs`, `background_index`) -/

inductive IndexMsg
  | progress (indexed total : Nat)
  | needsReload
  | done (total_sessions : Nat)
  | error (msg : String)
deriving DecidableEq, Repr

/-- What the indexer pass sees of one discovered file (in the
mtime-descending order in which the pass visits them): whether
`needs_reindex` returned true, and the parse outcome for the files that get
re-indexed (`none` = parse error, `some n` = a session with `n` messages). -/
structure DiscoveredFile where
  needsReindex : Bool
  parsed : Option Nat
deriving DecidableEq, Repr

/-- Events emitted while processing file `i` (0-based) of `total`:
a `Progress` every 50 files and on the last file, then a `NeedsReload` every
200 files (lines 516–528). -/
def fileEvents (total i : Nat) : List IndexMsg :=
  (if (i + 1) % 50 = 0 ∨ i + 1 = total then [.progress (i + 1) total] else []) ++
  (if (i + 1) % 200 = 0 then [.needsReload] else [])

/-- `background_index`: the sequence of messages sent on the channel during
one pass. `openOk`, `stateOk`, `writerOk` are the outcomes of
`SessionIndex::open_or_create`, `IndexState::load` and `index.writer()`;
`files` is the discovered (already mtime-sorted) file list. Failed sends are
silent (`let _ = tx.send(...)`), so this is the emission sequence. -/
def background_index (openOk stateOk writerOk : Bool) (files : List DiscoveredFile) :
    List IndexMsg :=
  if !openOk then [.error "Failed to open index"]
  else if !stateOk then [.error "Failed to load index state"]
  else
    let files_to_index := files.filter (·.needsReindex)
    let total := files_to_index.length
    if total = 0 then [.done files.length]
    else if !writerOk then [.error "Failed to create index writer"]
    else
      ((List.range total).flatMap (fileEvents total)) ++ [.done files.length]

/-- `true` for a `Done` event. -/
def isDoneMsg : IndexMsg → Bool
  | .done _ => true
  | _ => false

/-- `true` for an `Error` event. -/
def isErrorMsg : IndexMsg → Bool
  | .error _ => true
  | _ => false

/-- A pass with no `Error` event. -/
def noErrorPass (openOk stateOk writerOk : Bool) (files : List DiscoveredFile) : Bool :=
  (background_index openOk stateOk writerOk files).all (fun m => !isErrorMsg m)

/-! ## `run_read` (`src/cli.rs`)

Control flow of the `read` subcommand around the `DISABLE_TRUNCATION`
global, with the fallible collaborators as explicit outcomes: `selOk` is
whether the selector parses, `lookup` the `get_by_id` result, and `parse`
the outcome of `parser::parse_session_file` as a function of the flag value
it observes. The returned pair is (the `Result` of the function body up to
the parse, the final value of the flag). -/

def run_read (full : Bool) (flag0 : Bool) (selOk : Bool) (lookup : Option String)
    (parse : Bool → Except String Session) : Except String Session × Bool :=
  if !selOk then (.error "Invalid selector", flag0)
  else
    match lookup with
    | none => (.error "Session not found", flag0)
    | some _ =>
      let flag1 := if full then true else flag0
      match parse flag1 with
      | .error e => (.error e, flag1)
      | .ok s =>
        let flag2 := if full then false else flag1
        (.ok s, flag2)

/-! # Claims -/

/-! ## C5 — `needs_reindex` characterisation -/

/-- C5: `needs_reindex(path)` returns true iff the file currently exists on
disk and its current `(mtime, size)` differs from the recorded entry or no
entry exists; a file that no longer exists returns false (and so, in
particular, a file whose mtime changed with the size unchanged needs
reindexing). -/
theorem c5_needs_reindex_iff (fs : String → Option FileState)
    (indexed_files : List (String × FileState)) (path : String) :
    (needs_reindex fs indexed_files path = true ↔
      ∃ cur, fs path = some cur ∧
        (List.lookup path indexed_files = none ∨
          ∃ e, List.lookup path indexed_files = some e ∧
            (e.mtime ≠ cur.mtime ∨ e.size ≠ cur.size)))
    ∧ (fs path = none → needs_reindex fs indexed_files path = false) := by
  constructor
  · cases h : fs path with
    | none => simp [needs_reindex, h]
    | some cur =>
      cases h2 : List.lookup path indexed_files with
      | none => simp [needs_reindex, h, h2]
      | some e => simp [needs_reindex, h, h2, bne_iff_ne]
  · intro h
    simp [needs_reindex, h]

def c5fsMtimeBumped : String → Option FileState := fun p =>
  if p = "/home/u/.claude/projects/a/s.jsonl" then some ⟨5, 10⟩ else none

def c5fsGone : String → Option FileState := fun _ => none

def c5store : List (String × FileState) :=
  [("/home/u/.claude/projects/a/s.jsonl", ⟨4, 10⟩)]

/-- C5 witness: a recorded file whose mtime moved from 4 to 5 with the size
unchanged needs reindexing; once deleted from disk it does not. -/
theorem c5_needs_reindex_iff_witness :
    needs_reindex c5fsMtimeBumped c5store "/home/u/.claude/projects/a/s.jsonl" = true
    ∧ needs_reindex c5fsGone c5store "/home/u/.claude/projects/a/s.jsonl" = false :=
  ⟨(c5_needs_reindex_iff c5fsMtimeBumped c5store _).1.mpr
      ⟨⟨5, 10⟩, rfl, Or.inr ⟨⟨4, 10⟩, rfl, Or.inl (by decide)⟩⟩,
    (c5_needs_reindex_iff c5fsGone c5store _).2 rfl⟩

/-! ## C6 — the `Done` event -/

/-- C6: on a pass that emits no `Error`, `Done` is emitted exactly once, it
is the last event, and its `total_sessions` is the size of the whole
discovered file set (also when nothing needed reindexing). -/
theorem c6_done_once_last (openOk stateOk writerOk : Bool) (files : List DiscoveredFile)
    (h : noErrorPass openOk stateOk writerOk files = true) :
    (background_index openOk stateOk writerOk files).getLast?
        = some (.done files.length)
    ∧ ((background_index openOk stateOk writerOk files).filter isDoneMsg).length = 1 := by
  unfold noErrorPass at h
  unfold background_index at h ⊢
  cases openOk with
  | false => simp [isErrorMsg] at h
  | true =>
    cases stateOk with
    | false => simp [isErrorMsg] at h
    | true =>
      simp only [Bool.not_true, Bool.false_eq_true, if_false] at h ⊢
      by_cases htot : (files.filter (·.needsReindex)).length = 0
      · simp [htot, isDoneMsg]
      · rw [if_neg htot] at h ⊢
        cases writerOk with
        | false => simp [isErrorMsg] at h
        | true =>
          simp only [Bool.not_true, Bool.false_eq_true, if_false] at h ⊢
          have hloop : ∀ m ∈ (List.range (files.filter (·.needsReindex)).length).flatMap
              (fileEvents (files.filter (·.needsReindex)).length), isDoneMsg m = false := by
            intro m hm
            rw [List.mem_flatMap] at hm
            obtain ⟨i, _, hm⟩ := hm
            unfold fileEvents at hm
            rw [List.mem_append] at hm
            rcases hm with hm | hm <;> split at hm <;> simp_all [isDoneMsg]
          constructor
          · exact List.getLast?_concat _
          · rw [List.filter_append]
            rw [List.filter_eq_nil_iff.mpr (by intro a ha; rw [hloop a ha]; simp)]
            simp [isDoneMsg]

def c6files : List DiscoveredFile := [⟨true, some 2⟩, ⟨false, some 1⟩]

/-- C6 witness: a healthy pass over two discovered files (one needing
reindexing) ends with `Done { total_sessions := 2 }`, emitted once. -/
theorem c6_done_once_last_witness :
    (background_index true true true c6files).getLast? = some (.done c6files.length)
    ∧ ((background_index true true true c6files).filter isDoneMsg).length = 1 :=
  c6_done_once_last true true true c6files (by decide)

/-! ## C7 — the `--full` truncation flag -/

def c7parse_fail : Bool → Except String Session := fun _ => .error "Failed to open file"

/-- C7 counterexample: with `--full`, when `parse_session_file` fails the `?`
operator returns before the flag reset, so the final flag value is `true`,
not the claimed "cleared on every outcome". -/
theorem c7_flag_not_cleared_on_parse_error :
    (run_read true false true (some "/t.jsonl") c7parse_fail).2 = true := rfl

/-- C7 as amended: with `--full` the flag is set before the parser runs (the
parser observes `true`); it is cleared again when the parse succeeds, but a
parse error propagates with the flag still set; and every `ToolOutput` built
while the flag is set is untruncated with its content intact. -/
theorem c7_flag_discipline (flag0 : Bool) (fp : String)
    (parse : Bool → Except String Session) (s : Session) (e content : String)
    (is_error : Bool) :
    (parse true = .ok s → run_read true flag0 true (some fp) parse = (.ok s, false))
    ∧ (parse true = .error e → run_read true flag0 true (some fp) parse = (.error e, true))
    ∧ (toolOutputNew true content is_error).truncated = false
    ∧ (toolOutputNew true content is_error).content = content := by
  refine ⟨?_, ?_, ?_, ?_⟩
  · intro h; simp [run_read, h]
  · intro h; simp [run_read, h]
  · simp [toolOutputNew]
  · simp [toolOutputNew]

def c7sess : Session := ⟨"s1", .claudeCode, "/t.jsonl", ".", none, 0, []⟩

def c7parse_ok : Bool → Except String Session := fun _ => .ok c7sess

/-- C7 witness: a successful `--full` read ends with the flag cleared, and a
`ToolOutput` built under the flag keeps its content. -/
theorem c7_flag_discipline_witness :
    run_read true false true (some "/t.jsonl") c7parse_ok = (.ok c7sess, false)
    ∧ (toolOutputNew true "hello world" false).truncated = false
    ∧ (toolOutputNew true "hello world" false).content = "hello world" :=
  ⟨(c7_flag_discipline false "/t.jsonl" c7parse_ok c7sess "x" "hello world" false).1 rfl,
    (c7_flag_discipline false "/t.jsonl" c7parse_ok c7sess "x" "hello world" false).2.2.1,
    (c7_flag_discipline false "/t.jsonl" c7parse_ok c7sess "x" "hello world" false).2.2.2⟩

/-! ## C4 — query construction -/

/-- The boost factor of the first clause of a boolean query, when that clause
is a boost query (the shape `search` builds for multi-word queries). -/
def boostFactorHead : TantivyQuery → Option Rat
  | .boolean ((_, .boost _ f) :: _) => some f
  | _ => none

/-- C4 counterexample: the phrase boost the code applies is 5.0, not the
claimed ≈10×. -/
theorem c4_boost_is_five_not_ten :
    boostFactorHead (buildSearchQuery "focus attention") = some 5 ∧ (5 : Rat) ≠ 10 :=
  ⟨rfl, by norm_num⟩

/-- C4 as amended: for a query that splits into more than one
whitespace-separated word, the executed query is
`OR(Boost(phrase over the lowercased words, 5.0), base)`; for at most one
word, the base query alone (no phrase query is built). -/
theorem c4_query_shape :
    (∀ q : String, 1 < (splitWhitespace q).length →
      buildSearchQuery q = .boolean
        [(.should, .boost (.phrase ((splitWhitespace q).map lowerStr)) 5),
          (.should, .parsed q)])
    ∧ (∀ q : String, (splitWhitespace q).length ≤ 1 →
      buildSearchQuery q = .parsed q) := by
  constructor
  · intro q h
    unfold buildSearchQuery
    rw [if_pos h]
  · intro q h
    unfold buildSearchQuery
    rw [if_neg (by omega)]

/-- C4 witness: the two-word query builds the boosted phrase disjunction,
the one-word query stays a bare parsed query. -/
theorem c4_query_shape_witness :
    buildSearchQuery "focus attention" = .boolean
      [(.should, .boost (.phrase ((splitWhitespace "focus attention").map lowerStr)) 5),
        (.should, .parsed "focus attention")]
    ∧ buildSearchQuery "focus" = .parsed "focus" :=
  ⟨c4_query_shape.1 "focus attention" (by decide), c4_query_shape.2 "focus" (by decide)⟩

/-! ## C2 — adjacent message roles -/

/-- Adjacent messages must differ in role. -/
def roleAlternates (msgs : List Message) : Prop :=
  List.Chain' (fun a b => a.role ≠ b.role) msgs

lemma chain'_joinStep (acc : List Message) (m : Message)
    (h : List.Chain' (fun a b : Message => a.role ≠ b.role) acc) :
    List.Chain' (fun a b : Message => a.role ≠ b.role) (joinStep acc m) := by
  unfold joinStep
  cases hl : acc.getLast? with
  | none =>
    have : acc = [] := List.getLast?_eq_none_iff.mp hl
    subst this
    simp
  | some last =>
    have hne : acc ≠ [] := by
      intro h0
      rw [h0] at hl
      simp at hl
    have hlast : acc.getLast hne = last := by
      have := List.getLast?_eq_getLast acc hne
      rw [this] at hl
      exact Option.some_injective _ hl
    have hacc : acc.dropLast ++ [last] = acc := by
      rw [← hlast]
      exact List.dropLast_append_getLast hne
    dsimp only
    by_cases hr : last.role = m.role
    · rw [if_pos hr]
      rw [← hacc] at h
      rw [List.chain'_append] at h ⊢
      refine ⟨h.1, List.chain'_singleton _, ?_⟩
      intro x hx y hy
      simp only [List.head?_cons, Option.mem_def, Option.some.injEq] at hy
      subst hy
      exact h.2.2 x hx last rfl
    · rw [if_neg hr]
      rw [List.chain'_append]
      refine ⟨h, List.chain'_singleton _, ?_⟩
      intro x hx y hy
      simp only [List.head?_cons, Option.mem_def, Option.some.injEq] at hy
      subst hy
      rw [hl] at hx
      simp only [Option.mem_def, Option.some.injEq] at hx
      subst hx
      exact hr

lemma chain'_join_fold (msgs : List Message) :
    ∀ acc, List.Chain' (fun a b : Message => a.role ≠ b.role) acc →
      List.Chain' (fun a b : Message => a.role ≠ b.role) (msgs.foldl joinStep acc) := by
  induction msgs with
  | nil => intro acc h; exact h
  | cons m ms ih =>
    intro acc h
    exact ih (joinStep acc m) (chain'_joinStep acc m h)

lemma roleAlternates_join (msgs : List Message) :
    roleAlternates (join_consecutive_messages msgs) :=
  chain'_join_fold msgs [] (List.chain'_nil)

def c2lineA : CodexLineV :=
  .entry "response_item" (some 1) none (some ⟨some "user", some [⟨"input_text", some "hi"⟩]⟩)

def c2lineB : CodexLineV :=
  .entry "response_item" (some 2) none (some ⟨some "user", some [⟨"input_text", some "again"⟩]⟩)

def c2session : Session := codex_parse_file 0 "/home/u/.codex/sessions/r.jsonl" (some "r")
  [c2lineA, c2lineB]

/-- C2 counterexample: the Codex parser never calls
`join_consecutive_messages`, so a Codex transcript with two consecutive user
turns parses to a Session with two adjacent user Messages. -/
theorem c2_codex_keeps_adjacent_same_role :
    c2session.messages.map (fun m => m.role) = [.user, .user]
    ∧ ¬ roleAlternates c2session.messages := by
  have hmsgs : c2session.messages = [⟨.user, "hi", 1, []⟩, ⟨.user, "again", 2, []⟩] := rfl
  constructor
  · rw [hmsgs]; rfl
  · rw [roleAlternates, hmsgs]
    intro h
    exact (List.chain'_cons.mp h).1 rfl

/-- C2 as amended: `join_consecutive_messages` always yields a list with no
two adjacent same-role messages, and the Claude, Factory and OpenCode parsers
apply it, so their Sessions satisfy the invariant; the Codex parser does not
apply it and its Sessions may violate it (see the counterexample). -/
theorem c2_role_merge_invariant :
    (∀ msgs, roleAlternates (join_consecutive_messages msgs))
    ∧ (∀ now disable path stem lines,
        roleAlternates (claude_parse_file now disable path stem lines).messages)
    ∧ (∀ now path stem parentDirName lines,
        roleAlternates (factory_parse_file now path stem parentDirName lines).messages)
    ∧ (∀ now path sess msgEntries partsOf,
        roleAlternates (opencode_parse_file now path sess msgEntries partsOf).messages) :=
  ⟨fun msgs => roleAlternates_join msgs,
    fun _ _ _ _ _ => roleAlternates_join _,
    fun _ _ _ _ _ => roleAlternates_join _,
    fun _ _ _ _ _ => roleAlternates_join _⟩

/-! ## C9 — file-stem fallback for the session id -/

/-- The session id a Claude transcript line would contribute. -/
def claudeLineSid : ClaudeLineV → Option String
  | .malformed => none
  | .entry e => e.session_id

/-- The session id a Codex transcript line would contribute (only a
`session_meta` line with a deserialisable payload carries one; its `id`
field is mandatory). -/
def codexLineSid : CodexLineV → Option String
  | .entry ty _ (some m) _ => if ty = "session_meta" then some m.id else none
  | _ => none

/-- The session id a Factory transcript line would contribute. -/
def factoryLineSid : FactoryLineV → Option String
  | .malformed => none
  | .entry e => if e.entry_type = "session_start" then e.id else none

set_option maxHeartbeats 1000000 in
lemma claudeStep_sid_none (now : Int) (st : ClaudeSt) (l : ClaudeLineV)
    (h : st.sid = none) (h2 : claudeLineSid l = none) :
    (claudeStep now st l).sid = none := by
  cases l with
  | malformed => exact h
  | entry e =>
    simp only [claudeLineSid] at h2
    unfold claudeStep
    repeat' split
    all_goals (try exact h)
    all_goals (try simp_all)
    all_goals (repeat' split)
    all_goals simp_all

lemma claudeFold_sid_none (now : Int) (lines : List ClaudeLineV) :
    ∀ st : ClaudeSt, st.sid = none → (∀ l ∈ lines, claudeLineSid l = none) →
      (lines.foldl (claudeStep now) st).sid = none := by
  induction lines with
  | nil => intro st h _; exact h
  | cons l ls ih =>
    intro st h hl
    exact ih _ (claudeStep_sid_none now st l h (hl l (List.mem_cons_self l ls)))
      (fun x hx => hl x (List.mem_cons_of_mem l hx))

set_option maxHeartbeats 1000000 in
lemma codexStep_sid_none (now : Int) (st : CodexSt) (l : CodexLineV)
    (h : st.sid = none) (h2 : codexLineSid l = none) :
    (codexStep now st l).sid = none := by
  cases l with
  | malformed => exact h
  | entry ty ts pm pi =>
    unfold codexStep
    cases pm with
    | none =>
      repeat' split
      all_goals (try exact h)
      all_goals (try simp_all)
      all_goals (repeat' split)
      all_goals simp_all
    | some m =>
      simp only [codexLineSid] at h2
      repeat' split
      all_goals (try exact h)
      all_goals (try simp_all)
      all_goals (repeat' split)
      all_goals simp_all

lemma codexFold_sid_none (now : Int) (lines : List CodexLineV) :
    ∀ st : CodexSt, st.sid = none → (∀ l ∈ lines, codexLineSid l = none) →
      (lines.foldl (codexStep now) st).sid = none := by
  induction lines with
  | nil => intro st h _; exact h
  | cons l ls ih =>
    intro st h hl
    exact ih _ (codexStep_sid_none now st l h (hl l (List.mem_cons_self l ls)))
      (fun x hx => hl x (List.mem_cons_of_mem l hx))

set_option maxHeartbeats 1000000 in
lemma factoryStep_sid_none (now : Int) (st : FactorySt) (l : FactoryLineV)
    (h : st.sid = none) (h2 : factoryLineSid l = none) :
    (factoryStep now st l).sid = none := by
  cases l with
  | malformed => exact h
  | entry e =>
    simp only [factoryLineSid] at h2
    unfold factoryStep
    repeat' split
    all_goals (try exact h)
    all_goals (try simp_all)
    all_goals (repeat' split)
    all_goals simp_all

lemma factoryFold_sid_none (now : Int) (lines : List FactoryLineV) :
    ∀ st : FactorySt, st.sid = none → (∀ l ∈ lines, factoryLineSid l = none) →
      (lines.foldl (factoryStep now) st).sid = none := by
  induction lines with
  | nil => intro st h _; exact h
  | cons l ls ih =>
    intro st h hl
    exact ih _ (factoryStep_sid_none now st l h (hl l (List.mem_cons_self l ls)))
      (fun x hx => hl x (List.mem_cons_of_mem l hx))

/-- C9: for each of the three JSON-per-line parsers, when no record carries a
session identifier, the produced `Session.id` is the file stem. -/
theorem c9_session_id_falls_back_to_stem (now : Int) (disable : Bool) (path stem : String)
    (parentDirName : Option String) (linesC : List ClaudeLineV)
    (linesX : List CodexLineV) (linesF : List FactoryLineV) :
    ((∀ l ∈ linesC, claudeLineSid l = none) →
      (claude_parse_file now disable path (some stem) linesC).id = stem)
    ∧ ((∀ l ∈ linesX, codexLineSid l = none) →
      (codex_parse_file now path (some stem) linesX).id = stem)
    ∧ ((∀ l ∈ linesF, factoryLineSid l = none) →
      (factory_parse_file now path (some stem) parentDirName linesF).id = stem) := by
  refine ⟨?_, ?_, ?_⟩
  · intro h
    show (linesC.foldl (claudeStep now) claudeInitSt).sid.getD ((some stem).getD "unknown")
      = stem
    rw [claudeFold_sid_none now linesC claudeInitSt rfl h]
    rfl
  · intro h
    show (linesX.foldl (codexStep now) ⟨none, none, none, none, []⟩).sid.getD
      ((some stem).getD "unknown") = stem
    rw [codexFold_sid_none now linesX _ rfl h]
    rfl
  · intro h
    show (linesF.foldl (factoryStep now) ⟨none, none, none, []⟩).sid.getD
      ((some stem).getD "unknown") = stem
    rw [factoryFold_sid_none now linesF _ rfl h]
    rfl

def c9linesC : List ClaudeLineV :=
  [.entry ⟨"user", none, some "/w", none, some 3, some ⟨"user", .str "ping"⟩, none, none, none⟩]

def c9linesX : List CodexLineV :=
  [.entry "response_item" (some 4) none (some ⟨some "user", some [⟨"input_text", some "hi"⟩]⟩)]

def c9linesF : List FactoryLineV :=
  [.entry ⟨"message", none, none, some 5, some ⟨"user", .arr [.textB (some "hey")]⟩⟩]

/-- C9 witness: one id-less transcript per source, each parsing to a Session
whose id is the file stem. -/
theorem c9_session_id_falls_back_to_stem_witness :
    (claude_parse_file 7 false "/p/s-1.jsonl" (some "s-1") c9linesC).id = "s-1"
    ∧ (codex_parse_file 7 "/p/r-2.jsonl" (some "r-2") c9linesX).id = "r-2"
    ∧ (factory_parse_file 7 "/p/f-3.jsonl" (some "f-3") none c9linesF).id = "f-3" :=
  ⟨(c9_session_id_falls_back_to_stem 7 false "/p/s-1.jsonl" "s-1" none c9linesC c9linesX
      c9linesF).1 (by decide),
    (c9_session_id_falls_back_to_stem 7 false "/p/r-2.jsonl" "r-2" none c9linesC c9linesX
      c9linesF).2.1 (by decide),
    (c9_session_id_falls_back_to_stem 7 false "/p/f-3.jsonl" "f-3" none c9linesC c9linesX
      c9linesF).2.2 (by decide)⟩


/-! ## C10 — tool-result matching in the Claude parser -/

lemma lookup_append_or {A : Type} (t1 t2 : List (String × A)) (k : String) :
    List.lookup k (t1 ++ t2) =
      match List.lookup k t1 with
      | some v => some v
      | none => List.lookup k t2 := by
  induction t1 with
  | nil => simp [List.lookup]
  | cons a t ih =>
    by_cases h : k = a.1
    · simp [List.lookup, h]
    · simp only [List.cons_append, List.lookup, beq_eq_false_iff_ne.mpr h]
      exact ih

lemma lookup_map_replace {A : Type} (t : List (String × A)) (k : String) (v : A) :
    List.lookup k (t.map (fun kv => if kv.1 = k then (k, v) else kv)) =
      if (List.lookup k t).isSome then some v else none := by
  induction t with
  | nil => simp [List.lookup]
  | cons a t ih =>
    by_cases h : a.1 = k
    · rw [List.map_cons, if_pos h]
      simp [List.lookup, h]
    · rw [List.map_cons, if_neg h]
      have h2 : (k == a.1) = false := beq_eq_false_iff_ne.mpr (fun hk => h hk.symm)
      simp only [List.lookup, h2]
      exact ih

lemma lookup_hmInsert_self {A : Type} (t : List (String × A)) (k : String) (v : A) :
    List.lookup k (hmInsert t k v) = some v := by
  unfold hmInsert
  by_cases h : (List.lookup k t).isSome
  · rw [if_pos h, lookup_map_replace, if_pos h]
  · rw [if_neg h, lookup_append_or]
    cases h2 : List.lookup k t with
    | none => simp [List.lookup]
    | some w => rw [h2] at h; simp at h

lemma lookup_map_replace_ne {A : Type} (t : List (String × A)) (k k2 : String) (v : A)
    (h : k2 ≠ k) :
    List.lookup k2 (t.map (fun kv => if kv.1 = k then (k, v) else kv))
      = List.lookup k2 t := by
  induction t with
  | nil => simp
  | cons a t ih =>
    by_cases ha : a.1 = k
    · rw [List.map_cons, if_pos ha]
      have h2 : (k2 == k) = false := beq_eq_false_iff_ne.mpr h
      have h3 : (k2 == a.1) = false := by rw [ha]; exact h2
      simp only [List.lookup, h2, h3]
      exact ih
    · rw [List.map_cons, if_neg ha]
      cases hb : (k2 == a.1) with
      | true => simp [List.lookup, hb]
      | false => simp only [List.lookup, hb]; exact ih

lemma lookup_hmInsert_ne {A : Type} (t : List (String × A)) (k k2 : String) (v : A)
    (h : k2 ≠ k) : List.lookup k2 (hmInsert t k v) = List.lookup k2 t := by
  unfold hmInsert
  split
  · exact lookup_map_replace_ne t k k2 v h
  · rw [lookup_append_or]
    cases h2 : List.lookup k2 t with
    | some w => rfl
    | none => simp [List.lookup, beq_eq_false_iff_ne.mpr h]

def resultsOfLine : ClaudeLineV → List CToolResult
  | .malformed => []
  | .entry e =>
    if e.entry_type ≠ "user" ∧ e.entry_type ≠ "assistant" then []
    else if e.is_compact_summary = some true ∨ e.is_visible_in_transcript_only = some true
        ∨ e.is_meta = some true then []
    else match e.message with
      | some msg =>
        if roleOfString msg.role = some .user then extract_tool_results msg.content else []
      | none => []

def insertResults (t : List (String × CToolResult)) (rs : List CToolResult) :
    List (String × CToolResult) :=
  rs.foldl (fun t r => hmInsert t r.tool_use_id r) t

def lastResultFor (k : String) (rs : List CToolResult) : Option CToolResult :=
  (rs.filter (fun r => r.tool_use_id = k)).getLast?

def resolvedIds (calls : List ToolCall) : List String :=
  (calls.filter (fun tc => tc.output.isSome)).map (fun tc => tc.tool_use_id)


lemma lookup_insertResults (rs : List CToolResult) :
    ∀ (t : List (String × CToolResult)) (k : String),
      List.lookup k (insertResults t rs) =
        match lastResultFor k rs with
        | some r => some r
        | none => List.lookup k t := by
  induction rs with
  | nil => intro t k; simp [insertResults, lastResultFor]
  | cons r rs ih =>
    intro t k
    have hstep : insertResults t (r :: rs) = insertResults (hmInsert t r.tool_use_id r) rs :=
      rfl
    rw [hstep, ih]
    by_cases hk : r.tool_use_id = k
    · have hfilter : (r :: rs).filter (fun x => decide (x.tool_use_id = k))
          = r :: rs.filter (fun x => decide (x.tool_use_id = k)) := by
        simp [List.filter, hk]
      unfold lastResultFor
      rw [hfilter]
      cases hlast : (rs.filter (fun x => decide (x.tool_use_id = k))).getLast? with
      | some x =>
        rw [List.getLast?_cons, hlast]
        simp
      | none =>
        rw [List.getLast?_cons, hlast]
        simp only [Option.getD_none]
        rw [← hk, lookup_hmInsert_self]
    · have hfilter : (r :: rs).filter (fun x => decide (x.tool_use_id = k))
          = rs.filter (fun x => decide (x.tool_use_id = k)) := by
        simp [List.filter, hk]
      unfold lastResultFor
      rw [hfilter]
      cases hlast : (rs.filter (fun x => decide (x.tool_use_id = k))).getLast? with
      | some x => rfl
      | none =>
        rw [lookup_hmInsert_ne _ _ _ _ (fun h => hk h.symm)]

lemma lookup_eraseKey_self {A : Type} (t : List (String × A)) (k : String) :
    List.lookup k (eraseKey t k) = none := by
  induction t with
  | nil => rfl
  | cons a t ih =>
    unfold eraseKey at ih ⊢
    by_cases ha : a.1 = k
    · simp only [List.filter, ha]
      simpa using ih
    · simp only [List.filter]
      have : (!(a.1 = k : Bool)) = true := by simp [ha]
      rw [this]
      simp only [List.lookup, beq_eq_false_iff_ne.mpr (fun h : k = a.1 => ha h.symm)]
      exact ih

lemma lookup_filter_none {A : Type} (t : List (String × A)) (p : String × A → Bool)
    (k : String) (h : List.lookup k t = none) : List.lookup k (t.filter p) = none := by
  induction t with
  | nil => rfl
  | cons a t ih =>
    simp only [List.lookup] at h
    cases hb : (k == a.1) with
    | true => rw [hb] at h; simp at h
    | false =>
      rw [hb] at h
      simp only [List.filter]
      cases hp : p a with
      | true => simp only [List.lookup, hb]; exact ih h
      | false => exact ih h

lemma lookup_eraseKey_none {A : Type} (t : List (String × A)) (k k2 : String)
    (h : List.lookup k2 t = none) : List.lookup k2 (eraseKey t k) = none :=
  lookup_filter_none t _ k2 h

set_option maxHeartbeats 1000000 in
lemma claudeStep_tres (now : Int) (st : ClaudeSt) (l : ClaudeLineV) :
    (claudeStep now st l).tres = insertResults st.tres (resultsOfLine l) := by
  cases l with
  | malformed => rfl
  | entry e =>
    unfold claudeStep resultsOfLine
    repeat' split
    all_goals (try rfl)
    all_goals (try simp_all [insertResults])
    all_goals (repeat' split)
    all_goals simp_all [insertResults]

lemma claudeFold_tres (now : Int) (lines : List ClaudeLineV) :
    ∀ st : ClaudeSt,
      (lines.foldl (claudeStep now) st).tres
        = insertResults st.tres (lines.flatMap resultsOfLine) := by
  induction lines with
  | nil => intro st; rfl
  | cons l ls ih =>
    intro st
    rw [List.foldl_cons, ih, claudeStep_tres]
    show insertResults (insertResults st.tres (resultsOfLine l)) (ls.flatMap resultsOfLine)
      = insertResults st.tres (resultsOfLine l ++ ls.flatMap resultsOfLine)
    unfold insertResults
    rw [List.foldl_append]

lemma extract_ct_output_none (v : CValue) :
    ∀ tc ∈ (extract_content_and_tools v).2, tc.output = none := by
  cases v with
  | str s => intro tc h; simp [extract_content_and_tools] at h
  | other => intro tc h; simp [extract_content_and_tools] at h
  | arr blocks =>
    intro tc h
    simp only [extract_content_and_tools, List.mem_filterMap] at h
    obtain ⟨b, _, hb⟩ := h
    cases b <;> simp_all
    subst hb
    rfl

set_option maxHeartbeats 1000000 in
lemma claudeStep_output_none (now : Int) (st : ClaudeSt) (l : ClaudeLineV)
    (h : ∀ m ∈ st.msgs, ∀ tc ∈ m.tool_calls, tc.output = none) :
    ∀ m ∈ (claudeStep now st l).msgs, ∀ tc ∈ m.tool_calls, tc.output = none := by
  cases l with
  | malformed => exact h
  | entry e =>
    unfold claudeStep
    repeat' split
    all_goals (try exact h)
    all_goals intro m hm tc htc
    all_goals (simp only [apply_ite ClaudeSt.msgs] at hm)
    all_goals (repeat' split at hm)
    all_goals (
      first
        | exact h m hm tc htc
        | (simp only [List.mem_append, List.mem_singleton] at hm
           rcases hm with hm | hm
           · exact h m hm tc htc
           · subst hm
             exact extract_ct_output_none _ tc htc))

lemma claudeFold_output_none (now : Int) (lines : List ClaudeLineV) :
    ∀ st : ClaudeSt, (∀ m ∈ st.msgs, ∀ tc ∈ m.tool_calls, tc.output = none) →
      ∀ m ∈ (lines.foldl (claudeStep now) st).msgs, ∀ tc ∈ m.tool_calls, tc.output = none := by
  induction lines with
  | nil => intro st h; exact h
  | cons l ls ih =>
    intro st h
    exact ih _ (claudeStep_output_none now st l h)

lemma rclStep_decomp (d : Bool) (acc : List ToolCall × List (String × CToolResult))
    (tc : ToolCall) :
    rclStep d acc tc = (acc.1 ++ (rclStep d ([], acc.2) tc).1, (rclStep d ([], acc.2) tc).2) := by
  unfold rclStep hmRemoveLookup
  cases List.lookup tc.tool_use_id acc.2 <;> simp

lemma rclAux (d : Bool) (calls : List ToolCall) :
    ∀ acc : List ToolCall × List (String × CToolResult),
      calls.foldl (rclStep d) acc =
        (acc.1 ++ (calls.foldl (rclStep d) ([], acc.2)).1,
          (calls.foldl (rclStep d) ([], acc.2)).2) := by
  induction calls with
  | nil => intro acc; simp
  | cons c cs ih =>
    intro acc
    rw [List.foldl_cons, List.foldl_cons, rclStep_decomp d acc c]
    rw [ih (acc.1 ++ (rclStep d ([], acc.2) c).1, (rclStep d ([], acc.2) c).2)]
    rw [ih (rclStep d ([], acc.2) c)]
    simp [List.append_assoc]

lemma rtcStep_decomp (d : Bool) (acc : List Message × List (String × CToolResult))
    (m : Message) :
    rtcStep d acc m = (acc.1 ++ (rtcStep d ([], acc.2) m).1, (rtcStep d ([], acc.2) m).2) := by
  unfold rtcStep
  simp

lemma rtcAux (d : Bool) (msgs : List Message) :
    ∀ acc : List Message × List (String × CToolResult),
      msgs.foldl (rtcStep d) acc =
        (acc.1 ++ (msgs.foldl (rtcStep d) ([], acc.2)).1,
          (msgs.foldl (rtcStep d) ([], acc.2)).2) := by
  induction msgs with
  | nil => intro acc; simp
  | cons m ms ih =>
    intro acc
    rw [List.foldl_cons, List.foldl_cons, rtcStep_decomp d acc m]
    rw [ih (acc.1 ++ (rtcStep d ([], acc.2) m).1, (rtcStep d ([], acc.2) m).2)]
    rw [ih (rtcStep d ([], acc.2) m)]
    simp [List.append_assoc]

lemma rtc_fusion (d : Bool) (msgs : List Message) :
    ∀ tbl : List (String × CToolResult),
      ((resolveToolCalls d tbl msgs).1.flatMap (fun m => m.tool_calls)
          = (resolveCallsList d tbl (msgs.flatMap (fun m => m.tool_calls))).1)
      ∧ (resolveToolCalls d tbl msgs).2
          = (resolveCallsList d tbl (msgs.flatMap (fun m => m.tool_calls))).2 := by
  induction msgs with
  | nil => intro tbl; constructor <;> rfl
  | cons m ms ih =>
    intro tbl
    have houter : resolveToolCalls d tbl (m :: ms)
        = (({ m with tool_calls := (resolveCallsList d tbl m.tool_calls).1 } ::
            (resolveToolCalls d (resolveCallsList d tbl m.tool_calls).2 ms).1),
           (resolveToolCalls d (resolveCallsList d tbl m.tool_calls).2 ms).2) := by
      show (m :: ms).foldl (rtcStep d) ([], tbl) = _
      rw [List.foldl_cons]
      rw [rtcAux d ms (rtcStep d ([], tbl) m)]
      rfl
    have hinner : resolveCallsList d tbl ((m :: ms).flatMap (fun m => m.tool_calls))
        = ((resolveCallsList d tbl m.tool_calls).1 ++
            (resolveCallsList d (resolveCallsList d tbl m.tool_calls).2
              (ms.flatMap (fun m => m.tool_calls))).1,
           (resolveCallsList d (resolveCallsList d tbl m.tool_calls).2
              (ms.flatMap (fun m => m.tool_calls))).2) := by
      show List.foldl (rclStep d) ([], tbl) (m.tool_calls ++ ms.flatMap (fun m => m.tool_calls)) = _
      rw [List.foldl_append]
      rw [rclAux d (ms.flatMap (fun m => m.tool_calls)) (List.foldl (rclStep d) ([], tbl) m.tool_calls)]
      rfl
    rw [houter, hinner]
    obtain ⟨ih1, ih2⟩ := ih (resolveCallsList d tbl m.tool_calls).2
    constructor
    · simp only [List.flatMap_cons]
      rw [ih1]
    · exact ih2

lemma rcl_invariants (d : Bool) (calls : List ToolCall) :
    ∀ t : List (String × CToolResult), (∀ tc ∈ calls, tc.output = none) →
      List.Nodup (resolvedIds (resolveCallsList d t calls).1)
      ∧ ∀ k ∈ resolvedIds (resolveCallsList d t calls).1, List.lookup k t ≠ none := by
  induction calls with
  | nil =>
    intro t _
    constructor
    · exact List.nodup_nil
    · intro k hk; simp [resolveCallsList, resolvedIds] at hk
  | cons c cs ih =>
    intro t hout
    have hc : c.output = none := hout c (List.mem_cons_self c cs)
    have hcs : ∀ tc ∈ cs, tc.output = none :=
      fun tc htc => hout tc (List.mem_cons_of_mem c htc)
    have hcons : resolveCallsList d t (c :: cs)
        = ((rclStep d ([], t) c).1 ++ (resolveCallsList d (rclStep d ([], t) c).2 cs).1,
           (resolveCallsList d (rclStep d ([], t) c).2 cs).2) := by
      show List.foldl (rclStep d) ([], t) (c :: cs) = _
      rw [List.foldl_cons, rclAux d cs (rclStep d ([], t) c)]
      rfl
    cases hl : List.lookup c.tool_use_id t with
    | some r =>
      have hstep : rclStep d ([], t) c
          = ([{ c with
              status := if r.is_error then .error else .success,
              duration_ms := r.duration_ms,
              output := some (toolOutputNew d r.content r.is_error) }],
             eraseKey t c.tool_use_id) := by
        unfold rclStep hmRemoveLookup
        rw [hl]
        simp
      rw [hcons, hstep]
      obtain ⟨ihn, ihm⟩ := ih (eraseKey t c.tool_use_id) hcs
      have hids : resolvedIds
          (({ c with
              status := if r.is_error then .error else .success,
              duration_ms := r.duration_ms,
              output := some (toolOutputNew d r.content r.is_error) } : ToolCall) ::
            (resolveCallsList d (eraseKey t c.tool_use_id) cs).1)
          = c.tool_use_id :: resolvedIds (resolveCallsList d (eraseKey t c.tool_use_id) cs).1 := by
        simp [resolvedIds]
      constructor
      · rw [List.singleton_append, hids]
        refine List.Nodup.cons ?_ ihn
        intro hmem
        exact (ihm c.tool_use_id hmem) (lookup_eraseKey_self t c.tool_use_id)
      · intro k hk
        rw [List.singleton_append, hids] at hk
        rcases List.mem_cons.mp hk with hk | hk
        · subst hk; rw [hl]; simp
        · intro hnone
          exact (ihm k hk) (lookup_eraseKey_none t c.tool_use_id k hnone)
    | none =>
      have hstep : rclStep d ([], t) c = ([c], t) := by
        unfold rclStep hmRemoveLookup
        rw [hl]
        simp
      rw [hcons, hstep]
      simp only [List.singleton_append]
      obtain ⟨ihn, ihm⟩ := ih t hcs
      have hids : resolvedIds (c :: (resolveCallsList d t cs).1)
          = resolvedIds (resolveCallsList d t cs).1 := by
        simp [resolvedIds, hc]
      constructor
      · rw [hids]
        exact ihn
      · intro k hk
        rw [hids] at hk
        exact ihm k hk

/-- C10: in the Claude parser, (a) the side table resolves every
`tool_use_id` to the LAST `tool_result` block with that id in file order
(later results overwrite earlier ones), and (b) after the matching pass each
collected result is attached to at most one tool call — the resolved calls
have pairwise distinct ids. -/
theorem c10_tool_result_matching (now : Int) (disable : Bool) (lines : List ClaudeLineV)
    (k : String) :
    List.lookup k (claudeToolTable now lines) = lastResultFor k (lines.flatMap resultsOfLine)
    ∧ List.Nodup (resolvedIds
        ((resolveToolCalls disable (claudeToolTable now lines)
          (claudeFoldSt now lines).msgs).1.flatMap (fun m => m.tool_calls))) := by
  constructor
  · show List.lookup k (claudeFoldSt now lines).tres = _
    rw [show (claudeFoldSt now lines).tres
        = insertResults claudeInitSt.tres (lines.flatMap resultsOfLine) from
      claudeFold_tres now lines claudeInitSt]
    rw [lookup_insertResults]
    cases lastResultFor k (lines.flatMap resultsOfLine) <;> rfl
  · rw [(rtc_fusion disable (claudeFoldSt now lines).msgs (claudeToolTable now lines)).1]
    have hout : ∀ tc ∈ (claudeFoldSt now lines).msgs.flatMap (fun m => m.tool_calls),
        tc.output = none := by
      intro tc htc
      rw [List.mem_flatMap] at htc
      obtain ⟨m, hm, htc⟩ := htc
      exact claudeFold_output_none now lines claudeInitSt
        (by intro m hm; simp [claudeInitSt] at hm) m hm tc htc
    exact (rcl_invariants disable _ (claudeToolTable now lines) hout).1

/-! ## C3 — ToolOutput truncation -/

lemma utf8Size_le_four (c : Char) : c.utf8Size ≤ 4 := by
  have h : c.utf8Size = if c.val ≤ 0x7F then 1 else if c.val ≤ 0x7FF then 2
      else if c.val ≤ 0xFFFF then 3 else 4 := rfl
  rw [h]
  split <;> [skip; split <;> [skip; split]] <;> omega

lemma utf8Len_append (a b : List Char) : utf8Len (a ++ b) = utf8Len a + utf8Len b := by
  unfold utf8Len
  rw [List.map_append, List.sum_append]

lemma charIdxFrom_map_snd : ∀ (cs : List Char) (off : Nat),
    (charIdxFrom off cs).map (·.2) = cs := by
  intro cs
  induction cs with
  | nil => intro off; rfl
  | cons c cs ih => intro off; simp [charIdxFrom, ih]

lemma charIdxFrom_mem_ge : ∀ (cs : List Char) (off : Nat) (p : Nat × Char),
    p ∈ charIdxFrom off cs → off ≤ p.1 := by
  intro cs
  induction cs with
  | nil => intro off p h; simp [charIdxFrom] at h
  | cons c cs ih =>
    intro off p h
    rcases List.mem_cons.mp h with h | h
    · subst h; exact le_refl _
    · have := ih (off + c.utf8Size) p h
      omega

lemma charIdxFrom_mem_end_le : ∀ (cs : List Char) (off : Nat) (p : Nat × Char),
    p ∈ charIdxFrom off cs → p.1 + p.2.utf8Size ≤ off + utf8Len cs := by
  intro cs
  induction cs with
  | nil => intro off p h; simp [charIdxFrom] at h
  | cons c cs ih =>
    intro off p h
    have hlen : utf8Len (c :: cs) = c.utf8Size + utf8Len cs := by
      unfold utf8Len; simp
    rcases List.mem_cons.mp h with h | h
    · subst h
      simp only [hlen]
      have := Nat.zero_le (utf8Len cs)
      omega
    · have := ih (off + c.utf8Size) p h
      omega

lemma takeWhile_lt_nil_of_ge (cs : List Char) (off K : Nat) (h : K ≤ off) :
    (charIdxFrom off cs).takeWhile (fun p => decide (p.1 < K)) = [] := by
  cases cs with
  | nil => rfl
  | cons c cs =>
    simp only [charIdxFrom, List.takeWhile]
    have : decide (off < K) = false := by simp; omega
    rw [this]

lemma utf8Len_cons (c : Char) (cs : List Char) :
    utf8Len (c :: cs) = c.utf8Size + utf8Len cs := by
  unfold utf8Len; simp

lemma takeWhile_lt_utf8_le : ∀ (cs : List Char) (off K : Nat), off < K →
    off + utf8Len (((charIdxFrom off cs).takeWhile (fun p => decide (p.1 < K))).map (·.2))
      ≤ K + 3 := by
  intro cs
  induction cs with
  | nil =>
    intro off K h
    simp only [charIdxFrom, List.takeWhile]
    show off + utf8Len [] ≤ K + 3
    unfold utf8Len
    simp
    omega
  | cons c cs ih =>
    intro off K h
    simp only [charIdxFrom, List.takeWhile]
    have hdec : decide (off < K) = true := by simp; omega
    rw [hdec]
    simp only [List.map_cons]
    rw [utf8Len_cons]
    by_cases h2 : off + c.utf8Size < K
    · have := ih (off + c.utf8Size) K h2
      omega
    · rw [takeWhile_lt_nil_of_ge cs (off + c.utf8Size) K (by omega)]
      have h4 := utf8Size_le_four c
      show off + (c.utf8Size + utf8Len []) ≤ K + 3
      unfold utf8Len
      simp
      omega

lemma takeWhile_lt_utf8_ge : ∀ (cs : List Char) (off K : Nat), off < K →
    K ≤ off + utf8Len cs →
    K ≤ off + utf8Len (((charIdxFrom off cs).takeWhile (fun p => decide (p.1 < K))).map (·.2)) := by
  intro cs
  induction cs with
  | nil =>
    intro off K h h2
    unfold utf8Len at h2
    simp at h2
    omega
  | cons c cs ih =>
    intro off K h h2
    simp only [charIdxFrom, List.takeWhile]
    have hdec : decide (off < K) = true := by simp; omega
    rw [hdec]
    simp only [List.map_cons]
    rw [utf8Len_cons]
    rw [utf8Len_cons] at h2
    by_cases h3 : off + c.utf8Size < K
    · have := ih (off + c.utf8Size) K h3 (by omega)
      omega
    · have := Nat.zero_le (utf8Len (((charIdxFrom (off + c.utf8Size) cs).takeWhile
        (fun p => decide (p.1 < K))).map (·.2)))
      omega

lemma takeWhile_lt_getLast (cs : List Char) : ∀ (off K : Nat), off < K →
    K ≤ off + utf8Len cs →
    ∃ p, ((charIdxFrom off cs).takeWhile (fun p => decide (p.1 < K))).getLast? = some p
      ∧ K ≤ p.1 + p.2.utf8Size := by
  induction cs with
  | nil =>
    intro off K h h2
    unfold utf8Len at h2
    simp at h2
    omega
  | cons c cs ih =>
    intro off K h h2
    simp only [charIdxFrom, List.takeWhile]
    have hdec : decide (off < K) = true := by simp; omega
    rw [hdec]
    rw [utf8Len_cons] at h2
    by_cases h3 : off + c.utf8Size < K
    · obtain ⟨p, hp, hK⟩ := ih (off + c.utf8Size) K h3 (by omega)
      refine ⟨p, ?_, hK⟩
      rw [List.getLast?_cons, hp]
      rfl
    · rw [takeWhile_lt_nil_of_ge cs (off + c.utf8Size) K (by omega)]
      exact ⟨(off, c), rfl, by dsimp only; omega⟩

lemma charIdxFrom_getLast (cs : List Char) : ∀ (off : Nat), cs ≠ [] →
    ∃ p, (charIdxFrom off cs).getLast? = some p
      ∧ p.1 + p.2.utf8Size = off + utf8Len cs := by
  induction cs with
  | nil => intro off h; exact absurd rfl h
  | cons c cs ih =>
    intro off _
    cases hcs : cs with
    | nil =>
      refine ⟨(off, c), rfl, ?_⟩
      rw [utf8Len_cons]
      unfold utf8Len
      simp
    | cons c2 cs2 =>
      obtain ⟨p, hp, hK⟩ := ih (off + c.utf8Size) (by rw [hcs]; simp)
      rw [← hcs]
      refine ⟨p, ?_, by rw [utf8Len_cons]; omega⟩
      show ((off, c) :: charIdxFrom (off + c.utf8Size) cs).getLast? = some p
      rw [List.getLast?_cons, hp]
      rfl

lemma dropWhile_lt_sum : ∀ (cs : List Char) (off : Nat) (p : Nat × Char),
    p ∈ charIdxFrom off cs →
    utf8Len (((charIdxFrom off cs).dropWhile (fun q => decide (q.1 < p.1))).map (·.2)) + p.1
      = off + utf8Len cs := by
  intro cs
  induction cs with
  | nil => intro off p h; simp [charIdxFrom] at h
  | cons c cs ih =>
    intro off p h
    simp only [charIdxFrom, List.dropWhile]
    rcases List.mem_cons.mp h with h | h
    · subst h
      have : decide (off < (off, c).1) = false := by simp
      rw [this]
      simp only [List.map_cons]
      rw [utf8Len_cons, charIdxFrom_map_snd, utf8Len_cons]
      omega
    · have hge := charIdxFrom_mem_ge cs (off + c.utf8Size) p h
      have hpos := Char.utf8Size_pos c
      have : decide (off < p.1) = true := by simp; omega
      rw [this]
      dsimp only
      have := ih (off + c.utf8Size) p h
      rw [utf8Len_cons]
      omega

lemma markerChars_ne_nil (t : Nat) : markerChars t ≠ [] := by
  intro h
  have h2 : (markerChars t).length = 0 := by rw [h]; rfl
  unfold markerChars at h2
  rw [List.length_append, List.length_append] at h2
  have h3 : "\n[...truncated ".data.length = 15 := rfl
  omega

/-- Consecutive `char_indices` entries chain: each char ends where the next
one starts. -/
lemma charIdxFrom_chain : ∀ (cs : List Char) (off : Nat),
    List.Chain' (fun a b : Nat × Char => a.1 + a.2.utf8Size = b.1) (charIdxFrom off cs) := by
  intro cs
  induction cs with
  | nil => intro off; exact List.chain'_nil
  | cons c cs ih =>
    intro off
    rw [show charIdxFrom off (c :: cs)
      = (off, c) :: charIdxFrom (off + c.utf8Size) cs from rfl]
    rw [List.chain'_cons']
    refine ⟨?_, ih (off + c.utf8Size)⟩
    intro y hy
    cases cs with
    | nil => simp [charIdxFrom] at hy
    | cons c2 cs2 =>
      rw [show charIdxFrom (off + c.utf8Size) (c2 :: cs2)
        = (off + c.utf8Size, c2) :: charIdxFrom (off + c.utf8Size + c2.utf8Size) cs2
        from rfl] at hy
      simp only [List.head?_cons, Option.mem_def, Option.some.injEq] at hy
      subst hy
      rfl

lemma head?_dropWhile_false {A : Type} (p : A → Bool) (l : List A) (y : A)
    (h : (l.dropWhile p).head? = some y) : p y = false := by
  induction l with
  | nil => simp [List.dropWhile] at h
  | cons a l ih =>
    rw [List.dropWhile_cons] at h
    cases hp : p a with
    | true => rw [hp] at h; simp only [if_true] at h; exact ih h
    | false =>
      rw [hp] at h
      simp only [Bool.false_eq_true, if_false, List.head?_cons, Option.some.injEq] at h
      subst h
      exact hp

set_option maxHeartbeats 1000000 in
/-- C3: `ToolOutput::new` keeps, when it truncates, exactly a first-≈1 KiB
prefix (1000–1024 bytes) and a last-≈1 KiB suffix (996–1024 bytes) of the
original with the visible `markerChars` marker between them, staying within
2 KiB plus the marker; an untruncated result is the original content; an
error result is never truncated. -/
theorem c3_tool_output_truncation (disable : Bool) (content : String) (is_error : Bool) :
    ((toolOutputNew disable content is_error).truncated = true →
      ∃ pre suf,
        (toolOutputNew disable content is_error).content.data
          = pre ++ markerChars (utf8Len content.data) ++ suf
        ∧ pre <+: content.data ∧ suf <:+ content.data
        ∧ 1000 ≤ utf8Len pre ∧ utf8Len pre ≤ 1024
        ∧ 996 ≤ utf8Len suf ∧ utf8Len suf ≤ 1024
        ∧ markerChars (utf8Len content.data) ≠ []
        ∧ utf8Len (toolOutputNew disable content is_error).content.data
            ≤ 2048 + utf8Len (markerChars (utf8Len content.data)))
    ∧ ((toolOutputNew disable content is_error).truncated = false →
        (toolOutputNew disable content is_error).content = content)
    ∧ (is_error = true → (toolOutputNew disable content is_error).truncated = false) := by
  cases disable with
  | true =>
    refine ⟨?_, ?_, ?_⟩
    · intro h; simp [toolOutputNew] at h
    · intro _; simp [toolOutputNew]
    · intro _; simp [toolOutputNew]
  | false =>
    cases is_error with
    | true =>
      refine ⟨?_, ?_, ?_⟩
      · intro h; simp [toolOutputNew] at h
      · intro _; simp [toolOutputNew]
      · intro _; simp [toolOutputNew]
    | false =>
      by_cases hlen : utf8Len content.data ≤ 2000
      · refine ⟨?_, ?_, ?_⟩
        · intro h; simp [toolOutputNew, maxBytes, hlen] at h
        · intro _; simp [toolOutputNew, maxBytes, hlen]
        · intro h; simp at h
      · have htot : 2000 < utf8Len content.data := by omega
        obtain ⟨pS, hpS, hpSK⟩ :=
          takeWhile_lt_getLast content.data 0 1000 (by omega) (by omega)
        have hcs_ne : content.data ≠ [] := by
          intro h0
          rw [h0] at htot
          simp [utf8Len] at htot
        obtain ⟨p0, hp0, hp0K⟩ := charIdxFrom_getLast content.data 0 hcs_ne
        have hrevhead : (charIdxFrom 0 content.data).reverse.head? = some p0 := by
          rw [List.head?_reverse]; exact hp0
        obtain ⟨tail0, hrev⟩ : ∃ t, (charIdxFrom 0 content.data).reverse = p0 :: t := by
          cases hr : (charIdxFrom 0 content.data).reverse with
          | nil => rw [hr] at hrevhead; simp at hrevhead
          | cons a t =>
            rw [hr] at hrevhead
            simp only [List.head?_cons, Option.some.injEq] at hrevhead
            exact ⟨t, by rw [hrevhead]⟩
        have hp0pred : (fun p : Nat × Char =>
            decide (utf8Len content.data - p.1 < 1000)) p0 = true := by
          have h4 := utf8Size_le_four p0.2
          simp only [decide_eq_true_eq]
          omega
        have hchunk : (charIdxFrom 0 content.data).reverse.takeWhile
            (fun p => decide (utf8Len content.data - p.1 < 1000))
            = p0 :: tail0.takeWhile (fun p => decide (utf8Len content.data - p.1 < 1000)) := by
          rw [hrev, List.takeWhile_cons, if_pos hp0pred]
        obtain ⟨pL, hpL⟩ : ∃ pL, ((charIdxFrom 0 content.data).reverse.takeWhile
            (fun p => decide (utf8Len content.data - p.1 < 1000))).getLast? = some pL := by
          rw [hchunk, List.getLast?_cons]
          exact ⟨_, rfl⟩
        have hpLchunk := List.mem_of_mem_getLast? hpL
        have hpLmem : pL ∈ charIdxFrom 0 content.data := by
          have h2 : pL ∈ (charIdxFrom 0 content.data).reverse := by
            rw [← List.takeWhile_append_dropWhile
              (fun p => decide (utf8Len content.data - p.1 < 1000))
              (charIdxFrom 0 content.data).reverse]
            exact List.mem_append_left _ hpLchunk
          exact List.mem_reverse.mp h2
        have hpLpred : utf8Len content.data - pL.1 < 1000 := by
          have := List.mem_takeWhile_imp hpLchunk
          simpa using this
        have hd2 : decide (utf8Len content.data ≤ 2000) = false := by
          simp
          omega
        have hdata : (toolOutputNew false content false).content.data
            = (((charIdxFrom 0 content.data).takeWhile
                (fun p => decide (p.1 < pS.1 + pS.2.utf8Size))).map (·.2))
              ++ markerChars (utf8Len content.data)
              ++ (((charIdxFrom 0 content.data).dropWhile
                (fun p => decide (p.1 < pL.1))).map (·.2)) := by
          simp only [toolOutputNew, keepBytes, maxBytes, Bool.false_or]
          rw [if_neg (by simp), hd2]
          simp only [Bool.false_eq_true, if_false]
          simp only [hpS, hpL]
        have htrunc : (toolOutputNew false content false).truncated = true := by
          simp only [toolOutputNew, keepBytes, maxBytes, Bool.false_or]
          rw [if_neg (by simp), hd2]
          simp only [Bool.false_eq_true, if_false]
        have hpSmem : pS ∈ charIdxFrom 0 content.data := by
          have h1 := List.mem_of_mem_getLast? hpS
          rw [← List.takeWhile_append_dropWhile
            (fun p => decide (p.1 < 1000)) (charIdxFrom 0 content.data)]
          exact List.mem_append_left _ h1
        have hSEtot : pS.1 + pS.2.utf8Size ≤ utf8Len content.data := by
          have := charIdxFrom_mem_end_le content.data 0 pS hpSmem
          omega
        have hpSlt : pS.1 < 1000 := by
          have := List.mem_takeWhile_imp (List.mem_of_mem_getLast? hpS)
          simpa using this
        have hpS4 := utf8Size_le_four pS.2
        have hheadlo := takeWhile_lt_utf8_ge content.data 0 (pS.1 + pS.2.utf8Size)
          (by omega) (by omega)
        have hheadhi := takeWhile_lt_utf8_le content.data 0 (pS.1 + pS.2.utf8Size)
          (by omega)
        have htail := dropWhile_lt_sum content.data 0 pL hpLmem
        have hsuf996 : 996 ≤ utf8Len (((charIdxFrom 0 content.data).dropWhile
            (fun p => decide (p.1 < pL.1))).map (·.2)) := by
          cases hdw : (((charIdxFrom 0 content.data).reverse).dropWhile
              (fun p => decide (utf8Len content.data - p.1 < 1000))).head? with
          | none =>
            exfalso
            have hdwnil := List.head?_eq_none_iff.mp hdw
            have htw : ((charIdxFrom 0 content.data).reverse).takeWhile
                (fun p => decide (utf8Len content.data - p.1 < 1000))
                = (charIdxFrom 0 content.data).reverse := by
              have happ := List.takeWhile_append_dropWhile
                (fun p => decide (utf8Len content.data - p.1 < 1000))
                (charIdxFrom 0 content.data).reverse
              rw [hdwnil] at happ
              simpa using happ
            rw [htw, List.getLast?_reverse] at hpL
            obtain ⟨c0, cs0, hcs0⟩ : ∃ c0 cs0, content.data = c0 :: cs0 := by
              cases hc : content.data with
              | nil => exact absurd hc hcs_ne
              | cons c0 cs0 => exact ⟨c0, cs0, rfl⟩
            rw [hcs0] at hpL
            rw [show charIdxFrom 0 (c0 :: cs0)
              = (0, c0) :: charIdxFrom (0 + c0.utf8Size) cs0 from rfl] at hpL
            simp only [List.head?_cons, Option.some.injEq] at hpL
            rw [← hpL] at hpLpred
            simp only at hpLpred
            omega
          | some q =>
            have hq_false : (fun p : Nat × Char =>
                decide (utf8Len content.data - p.1 < 1000)) q = false :=
              head?_dropWhile_false _ _ q hdw
            have hq_ge : 1000 ≤ utf8Len content.data - q.1 := by
              simp only [decide_eq_false_iff_not, not_lt] at hq_false
              exact hq_false
            have hqmem : q ∈ charIdxFrom 0 content.data := by
              have h1 : q ∈ ((charIdxFrom 0 content.data).reverse).dropWhile
                  (fun p => decide (utf8Len content.data - p.1 < 1000)) :=
                List.mem_of_mem_head? hdw
              have h2 : q ∈ (charIdxFrom 0 content.data).reverse := by
                rw [← List.takeWhile_append_dropWhile
                  (fun p => decide (utf8Len content.data - p.1 < 1000))
                  (charIdxFrom 0 content.data).reverse]
                exact List.mem_append_right _ h1
              exact List.mem_reverse.mp h2
            have hqend := charIdxFrom_mem_end_le content.data 0 q hqmem
            have hq4 := utf8Size_le_four q.2
            have hchain : List.Chain' (fun a b : Nat × Char =>
                b.1 + b.2.utf8Size = a.1) ((charIdxFrom 0 content.data).reverse) := by
              rw [List.chain'_reverse]
              exact charIdxFrom_chain content.data 0
            have hbdry : q.1 + q.2.utf8Size = pL.1 := by
              rw [← List.takeWhile_append_dropWhile
                (fun p => decide (utf8Len content.data - p.1 < 1000))
                (charIdxFrom 0 content.data).reverse] at hchain
              exact (List.chain'_append.mp hchain).2.2 pL (Option.mem_def.mpr hpL)
                q (Option.mem_def.mpr hdw)
            omega
        refine ⟨?_, ?_, ?_⟩
        · intro _
          refine ⟨_, _, hdata, ?_, ?_, ?_, ?_, hsuf996, ?_,
            markerChars_ne_nil _, ?_⟩
          · exact ⟨((charIdxFrom 0 content.data).dropWhile
                (fun p => decide (p.1 < pS.1 + pS.2.utf8Size))).map (·.2),
              by rw [← List.map_append, List.takeWhile_append_dropWhile,
                charIdxFrom_map_snd]⟩
          · exact ⟨((charIdxFrom 0 content.data).takeWhile
                (fun p => decide (p.1 < pL.1))).map (·.2),
              by rw [← List.map_append, List.takeWhile_append_dropWhile,
                charIdxFrom_map_snd]⟩
          · omega
          · omega
          · omega
          · rw [hdata, utf8Len_append, utf8Len_append]
            omega
        · intro h
          rw [htrunc] at h
          simp at h
        · intro h
          simp at h

/-- A 2004-byte tool result (501 four-byte chars; must truncate). -/
def c3big : String := String.mk (List.replicate 501 '𝄞')

set_option maxRecDepth 10000 in
/-- C3 witness: the truncation branch is exercised on a concrete 2004-byte
output. -/
theorem c3_tool_output_truncation_witness :
    ∃ pre suf,
      (toolOutputNew false c3big false).content.data
        = pre ++ markerChars (utf8Len c3big.data) ++ suf
      ∧ pre <+: c3big.data ∧ suf <:+ c3big.data
      ∧ 1000 ≤ utf8Len pre ∧ utf8Len pre ≤ 1024
      ∧ 996 ≤ utf8Len suf ∧ utf8Len suf ≤ 1024
      ∧ markerChars (utf8Len c3big.data) ≠ []
      ∧ utf8Len (toolOutputNew false c3big false).content.data
          ≤ 2048 + utf8Len (markerChars (utf8Len c3big.data)) :=
  (c3_tool_output_truncation false c3big false).1 (by decide)

/-! ## C1 — search result invariants -/

/-- Invariant of the grouping map: keys are distinct and each stored result
carries its key as session id. -/
def groupInv (m : List (String × (Rat × SearchResult))) : Prop :=
  (m.map (·.1)).Nodup ∧ ∀ kv ∈ m, kv.2.2.session.id = kv.1

lemma lookup_none_not_mem_keys {A : Type} (m : List (String × A)) (k : String)
    (h : ¬(List.lookup k m).isSome) : k ∉ m.map (·.1) := by
  induction m with
  | nil => simp
  | cons a m ih =>
    intro hmem
    rcases List.mem_cons.mp hmem with hmem | hmem
    · rw [List.lookup, beq_iff_eq.mpr hmem] at h
      simp at h
    · refine ih ?_ hmem
      intro h2
      apply h
      rw [List.lookup]
      cases hb : (k == a.1) with
      | true => simp
      | false => exact h2

lemma map_fst_groupStep (q : String) (m : List (String × (Rat × SearchResult)))
    (sd : Rat × SDoc) :
    (groupStep q m sd).map (·.1)
      = if (List.lookup sd.2.session_id m).isSome then m.map (·.1)
        else m.map (·.1) ++ [sd.2.session_id] := by
  unfold groupStep
  by_cases hl : (List.lookup sd.2.session_id m).isSome
  · rw [if_pos hl, if_pos hl, List.map_map]
    apply List.map_congr_left
    intro kv _
    dsimp only [Function.comp]
    by_cases hk : kv.1 = sd.2.session_id
    · rw [if_pos hk]
      try dsimp only
      split <;> simp [hk]
    · rw [if_neg hk]
  · rw [if_neg hl, if_neg hl, List.map_append]
    rfl

lemma groupStep_val_inv (q : String) (m : List (String × (Rat × SearchResult)))
    (sd : Rat × SDoc) (h2 : ∀ kv ∈ m, kv.2.2.session.id = kv.1) :
    ∀ kv ∈ groupStep q m sd, kv.2.2.session.id = kv.1 := by
  unfold groupStep
  intro kv hkv
  by_cases hl : (List.lookup sd.2.session_id m).isSome
  · rw [if_pos hl] at hkv
    rw [List.mem_map] at hkv
    obtain ⟨kv0, hkv0, heq⟩ := hkv
    by_cases hk : kv0.1 = sd.2.session_id
    · rw [if_pos hk] at heq
      dsimp only at heq
      split at heq
      · subst heq
        show (mkSearchResult q sd.1 sd.2).session.id = kv0.1
        rw [show (mkSearchResult q sd.1 sd.2).session.id = sd.2.session_id from rfl, hk]
      · subst heq
        exact h2 kv0 hkv0
    · rw [if_neg hk] at heq
      subst heq
      exact h2 kv0 hkv0
  · rw [if_neg hl] at hkv
    rcases List.mem_append.mp hkv with hkv | hkv
    · exact h2 kv hkv
    · rw [List.mem_singleton] at hkv
      subst hkv
      rfl

lemma groupStep_inv (q : String) (m : List (String × (Rat × SearchResult)))
    (sd : Rat × SDoc) (h : groupInv m) : groupInv (groupStep q m sd) := by
  obtain ⟨h1, h2⟩ := h
  refine ⟨?_, groupStep_val_inv q m sd h2⟩
  rw [map_fst_groupStep]
  by_cases hl : (List.lookup sd.2.session_id m).isSome
  · rw [if_pos hl]; exact h1
  · rw [if_neg hl]
    rw [List.nodup_append]
    refine ⟨h1, List.nodup_singleton _, ?_⟩
    intro x hx hx2
    rw [List.mem_singleton] at hx2
    subst hx2
    exact lookup_none_not_mem_keys m _ hl hx

lemma groupBySession_inv (q : String) (docs : List (Rat × SDoc)) :
    groupInv (groupBySession q docs) := by
  suffices h : ∀ m, groupInv m → groupInv (docs.foldl (groupStep q) m) by
    exact h [] ⟨by simp, by simp⟩
  induction docs with
  | nil => intro m h; exact h
  | cons d ds ih =>
    intro m h
    exact ih (groupStep q m d) (groupStep_inv q m d h)

lemma groupValues_pairwise (q : String) (docs : List (Rat × SDoc)) :
    List.Pairwise (fun a b : SearchResult => a.session.id ≠ b.session.id)
      (groupValues q docs) := by
  obtain ⟨h1, h2⟩ := groupBySession_inv q docs
  have hmap : (groupValues q docs).map (fun r => r.session.id)
      = (groupBySession q docs).map (·.1) := by
    unfold groupValues
    rw [List.map_map]
    apply List.map_congr_left
    intro kv hkv
    exact h2 kv hkv
  have hnd : ((groupValues q docs).map (fun r => r.session.id)).Nodup := by
    rw [hmap]; exact h1
  rw [List.Nodup, List.pairwise_map] at hnd
  exact hnd

/-- C1: `search` returns at most `limit` results, no two results share a
`session_id`, and an empty or whitespace-only query returns the empty list —
for every snapshot (`top_docs`), every recency function and every hash-map
iteration order. -/
theorem c1_search_invariants (shuffle : List SearchResult → List SearchResult)
    (expQ : Rat → Rat) (query_str : String) (limit : Nat) (now : Int)
    (top_docs : List (Rat × SDoc)) (hshuffle : ∀ l, List.Perm (shuffle l) l) :
    (search shuffle expQ query_str limit now top_docs).length ≤ limit
    ∧ List.Pairwise (fun a b : SearchResult => a.session.id ≠ b.session.id)
        (search shuffle expQ query_str limit now top_docs)
    ∧ (trimIsEmpty query_str = true →
        search shuffle expQ query_str limit now top_docs = []) := by
  unfold search
  by_cases hq : trimIsEmpty query_str
  · rw [if_pos hq]
    exact ⟨Nat.zero_le _, List.Pairwise.nil, fun _ => rfl⟩
  · rw [if_neg hq]
    refine ⟨List.length_take_le _ _, ?_, fun h => absurd h hq⟩
    have hp1 : List.Pairwise (fun a b : SearchResult => a.session.id ≠ b.session.id)
        (shuffle (groupValues query_str top_docs)) := by
      refine (List.Perm.pairwise_iff ?_ (hshuffle (groupValues query_str top_docs))).mpr
        (groupValues_pairwise query_str top_docs)
      intro x y hxy
      exact hxy.symm
    have hp2 : List.Pairwise (fun a b : SearchResult => a.session.id ≠ b.session.id)
        (sortResults expQ now (shuffle (groupValues query_str top_docs))) := by
      refine (List.Perm.pairwise_iff ?_
        (List.mergeSort_perm (shuffle (groupValues query_str top_docs))
          (searchLe expQ now))).mpr hp1
      intro x y hxy
      exact hxy.symm
    exact List.Pairwise.sublist (List.take_sublist _ _) hp2

def c1doc1 : SDoc := ⟨"s1", "claude", "/p/a.jsonl", "/w", "", 100, 0, "hello world"⟩

def c1doc2 : SDoc := ⟨"s2", "codex", "/p/b.jsonl", "/w", "", 50, 1, "hello there"⟩

def c1docs : List (Rat × SDoc) := [(1, c1doc1), (1, c1doc2)]

/-- C1 witness: a concrete two-document snapshot under the identity
iteration order. -/
theorem c1_search_invariants_witness :
    (search (fun l => l) (fun _ => 1) "hello" 2 0 c1docs).length ≤ 2
    ∧ List.Pairwise (fun a b : SearchResult => a.session.id ≠ b.session.id)
        (search (fun l => l) (fun _ => 1) "hello" 2 0 c1docs)
    ∧ (trimIsEmpty "hello" = true →
        search (fun l => l) (fun _ => 1) "hello" 2 0 c1docs = []) :=
  c1_search_invariants (fun l => l) (fun _ => 1) "hello" 2 0 c1docs
    (fun l => List.Perm.refl l)

/-! ## C8 — ranking ties -/

def c8exp : Rat → Rat := fun _ => 1

def c8docB : SDoc := ⟨"b", "claude", "/p/b.jsonl", ".", "", 0, 0, "x"⟩

def c8docA : SDoc := ⟨"a", "claude", "/p/a.jsonl", ".", "", 0, 0, "x"⟩

def c8docs : List (Rat × SDoc) := [(0, c8docB), (0, c8docA)]

def c8resB : SearchResult := mkSearchResult "x" 0 c8docB

def c8resA : SearchResult := mkSearchResult "x" 0 c8docA

lemma c8_groupValues : groupValues "x" c8docs = [c8resB, c8resA] := rfl

lemma c8_finalB : finalScore c8exp 0 c8resB = 0 := by
  unfold finalScore
  rw [show c8resB.score = (0 : Rat) from rfl, zero_mul]

lemma c8_finalA : finalScore c8exp 0 c8resA = 0 := by
  unfold finalScore
  rw [show c8resA.score = (0 : Rat) from rfl, zero_mul]

lemma c8_leBA : searchLe c8exp 0 c8resB c8resA = true := by
  unfold searchLe
  rw [c8_finalA, c8_finalB]
  simp

lemma c8_leAB : searchLe c8exp 0 c8resA c8resB = true := by
  unfold searchLe
  rw [c8_finalA, c8_finalB]
  simp

lemma c8_sortBA : sortResults c8exp 0 [c8resB, c8resA] = [c8resB, c8resA] :=
  List.mergeSort_of_sorted (by
    refine List.pairwise_cons.mpr ⟨?_, List.pairwise_singleton _ _⟩
    intro b hb
    rw [List.mem_singleton] at hb
    subst hb
    exact c8_leBA)

lemma c8_sortAB : sortResults c8exp 0 [c8resA, c8resB] = [c8resA, c8resB] :=
  List.mergeSort_of_sorted (by
    refine List.pairwise_cons.mpr ⟨?_, List.pairwise_singleton _ _⟩
    intro b hb
    rw [List.mem_singleton] at hb
    subst hb
    exact c8_leAB)

/-- C8 counterexample: two results with equal final score (both 0). The sort
comparator returns `Equal` for them and the stable sort leaves them in
hash-map iteration order, so two runs differing only in that (unspecified)
order return opposite orders — there is no session-id tie-break and no
cross-run determinism. -/
theorem c8_equal_scores_follow_hash_order :
    ((search (fun l => l) c8exp "x" 10 0 c8docs).map (fun r => r.session.id)
      = ["b", "a"])
    ∧ ((search List.reverse c8exp "x" 10 0 c8docs).map (fun r => r.session.id)
      = ["a", "b"])
    ∧ finalScore c8exp 0 c8resB = finalScore c8exp 0 c8resA
    ∧ c8resB.session.id ≠ c8resA.session.id := by
  have hq : trimIsEmpty "x" = false := by decide
  refine ⟨?_, ?_, by rw [c8_finalA, c8_finalB], by decide⟩
  · unfold search
    rw [if_neg (by rw [hq]; simp)]
    rw [show (fun l : List SearchResult => l) (groupValues "x" c8docs)
      = [c8resB, c8resA] from c8_groupValues]
    dsimp only
    rw [c8_sortBA]
    rfl
  · unfold search
    rw [if_neg (by rw [hq]; simp)]
    rw [show (groupValues "x" c8docs).reverse = [c8resA, c8resB] from by
      rw [c8_groupValues]; rfl]
    dsimp only
    rw [c8_sortAB]
    rfl

/-- C8 as amended: the final `sort_by` is a stable sort on the final score
alone — a pair already in order by final score (in particular any
equal-score pair) keeps its relative order from the grouping map's
iteration order; the returned list is that sort truncated to `limit`.
There is no session-id tie-break. -/
theorem c8_stable_sort_by_final (shuffle : List SearchResult → List SearchResult)
    (expQ : Rat → Rat) (query_str : String) (limit : Nat) (now : Int)
    (top_docs : List (Rat × SDoc)) (a b : SearchResult)
    (hq : trimIsEmpty query_str = false)
    (hpair : [a, b].Sublist (shuffle (groupValues query_str top_docs)))
    (hle : finalScore expQ now b ≤ finalScore expQ now a) :
    [a, b].Sublist (sortResults expQ now (shuffle (groupValues query_str top_docs)))
    ∧ search shuffle expQ query_str limit now top_docs
        = (sortResults expQ now (shuffle (groupValues query_str top_docs))).take limit := by
  constructor
  · refine List.pair_sublist_mergeSort ?_ ?_ ?_ hpair
    · intro x y z hxy hyz
      exact decide_eq_true
        (le_trans (of_decide_eq_true hyz) (of_decide_eq_true hxy))
    · intro x y
      rcases le_total (finalScore expQ now y) (finalScore expQ now x) with h | h
      · rw [Bool.or_eq_true]
        exact Or.inl (decide_eq_true h)
      · rw [Bool.or_eq_true]
        exact Or.inr (decide_eq_true h)
    · exact decide_eq_true hle
  · unfold search
    rw [if_neg (by rw [hq]; simp)]

/-- C8 witness: the amended stability statement at the concrete equal-score
pair. -/
theorem c8_stable_sort_by_final_witness :
    [c8resB, c8resA].Sublist
      (sortResults c8exp 0 ((fun l => l) (groupValues "x" c8docs)))
    ∧ search (fun l => l) c8exp "x" 10 0 c8docs
        = (sortResults c8exp 0 ((fun l => l) (groupValues "x" c8docs))).take 10 :=
  c8_stable_sort_by_final (fun l => l) c8exp "x" 10 0 c8docs c8resB c8resA
    (by decide)
    (by rw [show (fun l : List SearchResult => l) (groupValues "x" c8docs)
        = [c8resB, c8resA] from c8_groupValues])
    (le_of_eq (by rw [c8_finalA, c8_finalB]))
